import Mathlib

/-!
Verification of the insightsim core: a shallow embedding of the ingestion/merge
engine, the CSV import path, the synthetic data generator and the calendar-bucket
aggregation engine, together with proofs of the specified properties.

Modelling conventions:
* `float64` values are modelled as rationals (`ℚ`); machine floating point
  rounding is outside the scope of the claims treated here.
* The SQLite `insight_raws` table is modelled as a list of `Sample` rows; the
  `tags` table as a list of `TagRow` rows.  SQL statements are translated
  one-by-one into list operations (`SELECT ... WHERE tag=? AND timestamp=?`
  becomes `findSample`, `UPDATE ... WHERE` becomes a key-preserving map,
  `INSERT OR REPLACE` removes the conflicting key and appends, `DELETE`
  filters).
* Go's `time.Parse` and `strconv.ParseFloat` are external library collaborators;
  they are passed as parameters (`String → Option Int`, `String → Option ℚ`).
* Transactions: every fallible unit of work computes on a working copy of the
  store and returns the original store on error (`tx.Rollback`) or the working
  copy on success (`tx.Commit`).
* The process-wide random source (`math/rand`) is modelled as a stream
  `u : Nat → ℚ` of draws in `[0,1)` consumed left to right, with the stream
  position threaded through the computation.
-/

/-- One row of the `insight_raws` table: the atomic `(tag, timestamp, value,
quality)` fact, with `timestamp` in Unix milliseconds UTC. -/
structure Sample where
  tag : String
  timestamp : Int
  value : ℚ
  quality : Int
deriving DecidableEq, Repr

/-- One row of the `tags` table (tag registry). -/
structure TagRow where
  tag : String
  createdAt : String
  updatedAt : String
  source : String
deriving DecidableEq, Repr

/-- The two persisted collections owned by the storage collaborator. -/
structure DBState where
  raws : List Sample
  tags : List TagRow
deriving DecidableEq, Repr

/-- Key match used by the `WHERE tag = ? AND timestamp = ?` clauses. -/
def sampleKeyMatch (r : Sample) (tag : String) (ts : Int) : Bool :=
  r.tag == tag && r.timestamp == ts

/-- The `SELECT quality FROM insight_raws WHERE tag = ? AND timestamp = ?`
lookup (`checkStmt` in `LoadFromReader` and `GenerateDummyData`). -/
def findSample (store : List Sample) (tag : String) (ts : Int) : Option Sample :=
  store.find? (fun r => sampleKeyMatch r tag ts)

/-- Number of rows stored at a `(tag, timestamp)` key. -/
def countKey (store : List Sample) (tag : String) (ts : Int) : Nat :=
  (store.filter (fun r => sampleKeyMatch r tag ts)).length

/-- The `(tag, timestamp)` uniqueness invariant: at most one Sample per key
(enforced in the schema by `UNIQUE(tag, timestamp)`). -/
def UniqueKeys (store : List Sample) : Prop :=
  ∀ tag ts, countKey store tag ts ≤ 1

/-- Pairwise formulation of key uniqueness, convenient for induction. -/
def KeysNodup (store : List Sample) : Prop :=
  store.Pairwise (fun a b => ¬(a.tag = b.tag ∧ a.timestamp = b.timestamp))

/-- The per-sample merge step of `LoadFromReader` (and of the generator's
per-tick upsert): look the key up; if absent, `INSERT`; if present and the
incoming quality is at least the existing quality, `UPDATE value, quality`;
otherwise leave the row alone.  The boolean records whether `totalCount` was
incremented. -/
def mergeSample (store : List Sample) (tag : String) (ts : Int) (v : ℚ) (q : Int) :
    List Sample × Bool :=
  match findSample store tag ts with
  | none => (store ++ [⟨tag, ts, v, q⟩], true)
  | some existing =>
      if existing.quality ≤ q then
        (store.map fun r =>
          if sampleKeyMatch r tag ts then { r with value := v, quality := q } else r, true)
      else (store, false)

/-- `INSERT OR REPLACE INTO insight_raws` under the `UNIQUE(tag, timestamp)`
constraint: SQLite deletes every conflicting row, then inserts the new one. -/
def insertOrReplace (store : List Sample) (s : Sample) : List Sample :=
  store.filter (fun r => !sampleKeyMatch r s.tag s.timestamp) ++ [s]

theorem sampleKeyMatch_iff (r : Sample) (tag : String) (ts : Int) :
    sampleKeyMatch r tag ts = true ↔ r.tag = tag ∧ r.timestamp = ts := by
  simp [sampleKeyMatch]

theorem findSample_some_key {store : List Sample} {tag : String} {ts : Int} {e : Sample}
    (h : findSample store tag ts = some e) : e.tag = tag ∧ e.timestamp = ts := by
  have := List.find?_some h
  exact (sampleKeyMatch_iff e tag ts).mp this

theorem findSample_some_mem {store : List Sample} {tag : String} {ts : Int} {e : Sample}
    (h : findSample store tag ts = some e) : e ∈ store :=
  List.mem_of_find?_eq_some h

theorem findSample_none_iff (store : List Sample) (tag : String) (ts : Int) :
    findSample store tag ts = none ↔ ∀ r ∈ store, ¬(r.tag = tag ∧ r.timestamp = ts) := by
  constructor
  · intro h r hr hk
    have := List.find?_eq_none.mp h r hr
    exact this ((sampleKeyMatch_iff r tag ts).mpr hk)
  · intro h
    apply List.find?_eq_none.mpr
    intro r hr
    intro hm
    exact h r hr ((sampleKeyMatch_iff r tag ts).mp hm)

theorem findSample_update {store : List Sample} {tag : String} {ts : Int} {e : Sample}
    (h : findSample store tag ts = some e) (v : ℚ) (q : Int) :
    findSample
      (store.map fun r =>
        if sampleKeyMatch r tag ts then { r with value := v, quality := q } else r)
      tag ts = some ⟨tag, ts, v, q⟩ := by
  induction store with
  | nil => simp [findSample] at h
  | cons hd tl ih =>
      by_cases hm : sampleKeyMatch hd tag ts
      · have he : hd = e := by
          simp [findSample, List.find?, hm] at h
          exact h
        have hk := (sampleKeyMatch_iff hd tag ts).mp hm
        have hm2 : sampleKeyMatch ({ hd with value := v, quality := q }) tag ts = true := by
          simp [sampleKeyMatch, hk.1, hk.2]
        simp [findSample, List.find?, hm, hm2]
        cases hd
        simp at hk
        simp [hk.1, hk.2]
      · have hm0 : sampleKeyMatch hd tag ts = false := by
          exact Bool.not_eq_true _ ▸ (by simpa using hm)
        have h2 : findSample tl tag ts = some e := by
          simpa [findSample, List.find?, hm0] using h
        have := ih h2
        simpa [findSample, List.find?, hm0] using this

/-- C1: merging one ingested sample at a `(tag, timestamp)` key: when no Sample
exists at the key the sample is inserted; when a Sample exists, the incoming
value and quality are stored iff the incoming quality is at least the existing
quality (ties favour the incoming sample), and otherwise the store is left
completely unchanged. -/
theorem mergeSample_quality_upsert (store : List Sample) (tag : String) (ts : Int)
    (v : ℚ) (q : Int) :
    (findSample store tag ts = none →
      (mergeSample store tag ts v q).1 = store ++ [⟨tag, ts, v, q⟩]) ∧
    (∀ e, findSample store tag ts = some e →
      (e.quality ≤ q →
        findSample (mergeSample store tag ts v q).1 tag ts = some ⟨tag, ts, v, q⟩) ∧
      (q < e.quality → (mergeSample store tag ts v q).1 = store)) := by
  constructor
  · intro h
    simp [mergeSample, h]
  · intro e he
    constructor
    · intro hq
      simp only [mergeSample, he, if_pos hq]
      exact findSample_update he v q
    · intro hq
      have : ¬ e.quality ≤ q := by omega
      simp [mergeSample, he, this]

/-- Witness for C1 at the spec's Scenario B input: the existing row has quality
5, the incoming sample has quality 2, and the store is unchanged. -/
theorem mergeSample_quality_upsert_witness :
    (mergeSample [⟨"T", 1000, 5, 5⟩] "T" 1000 1 2).1 = [⟨"T", 1000, 5, 5⟩] :=
  ((mergeSample_quality_upsert [⟨"T", 1000, 5, 5⟩] "T" 1000 1 2).2
    ⟨"T", 1000, 5, 5⟩ (by decide)).2 (by decide)

theorem keysNodup_uniqueKeys {store : List Sample} (h : KeysNodup store) : UniqueKeys store := by
  intro tag ts
  by_contra hc
  have h2 : 2 ≤ (store.filter (fun r => sampleKeyMatch r tag ts)).length := by
    unfold countKey at hc; omega
  have hp := h.filter (fun r => sampleKeyMatch r tag ts)
  rcases hfl : store.filter (fun r => sampleKeyMatch r tag ts) with _ | ⟨a, _ | ⟨b, t⟩⟩
  · rw [hfl] at h2; simp at h2
  · rw [hfl] at h2; simp at h2
  · rw [hfl] at hp
    have hab := (List.pairwise_cons.mp hp).1 b (by simp)
    have hma : a ∈ store.filter (fun r => sampleKeyMatch r tag ts) := by rw [hfl]; simp
    have hmb : b ∈ store.filter (fun r => sampleKeyMatch r tag ts) := by rw [hfl]; simp
    have ha : sampleKeyMatch a tag ts = true := (List.mem_filter.mp hma).2
    have hb : sampleKeyMatch b tag ts = true := (List.mem_filter.mp hmb).2
    have hka := (sampleKeyMatch_iff a tag ts).mp ha
    have hkb := (sampleKeyMatch_iff b tag ts).mp hb
    exact hab ⟨hka.1.trans hkb.1.symm, hka.2.trans hkb.2.symm⟩

theorem keysNodup_mergeSample {store : List Sample} (h : KeysNodup store)
    (tag : String) (ts : Int) (v : ℚ) (q : Int) :
    KeysNodup (mergeSample store tag ts v q).1 := by
  unfold mergeSample
  cases hf : findSample store tag ts with
  | none =>
      simp only
      apply List.pairwise_append.mpr
      refine ⟨h, List.pairwise_singleton _ _, ?_⟩
      intro a ha b hb
      simp only [List.mem_singleton] at hb
      subst hb
      exact (findSample_none_iff store tag ts).mp hf a ha
  | some e =>
      by_cases hq : e.quality ≤ q
      · simp only [if_pos hq]
        refine List.Pairwise.map _ ?_ h
        intro a b hab hk
        apply hab
        by_cases hma : sampleKeyMatch a tag ts <;> by_cases hmb : sampleKeyMatch b tag ts <;>
          simpa [hma, hmb] using hk
      · simpa [if_neg hq] using h

theorem keysNodup_insertOrReplace {store : List Sample} (h : KeysNodup store) (s : Sample) :
    KeysNodup (insertOrReplace store s) := by
  unfold insertOrReplace
  apply List.pairwise_append.mpr
  refine ⟨h.filter _, List.pairwise_singleton _ _, ?_⟩
  intro a ha b hb
  simp only [List.mem_singleton] at hb
  intro hk
  have hfa := List.of_mem_filter ha
  rw [hb] at hk
  have hm : sampleKeyMatch a s.tag s.timestamp = true :=
    (sampleKeyMatch_iff a s.tag s.timestamp).mpr ⟨hk.1, hk.2⟩
  simp [hm] at hfa

theorem keysNodup_filter {store : List Sample} (h : KeysNodup store) (p : Sample → Bool) :
    KeysNodup (store.filter p) := h.filter p

/-- One data point of the JSON feed (`models.DataPoint`): an ISO-8601 timestamp
literal with a value and a quality. -/
structure DataPoint where
  timestamp : String
  value : ℚ
  quality : Int
deriving DecidableEq, Repr

/-- Errors raised inside `LoadFromReader`'s transaction.  `badTimestamp`
carries the offending literal and the source tag; `storage` stands for a
storage-layer failure of one of the prepared statements (injected through the
`failAt` oracle below). -/
inductive LoadError where
  | badTimestamp (lit tag : String)
  | storage
deriving DecidableEq, Repr

/-- Rendering of load errors.  `badTimestamp` renders the exact
`fmt.Errorf("invalid timestamp %s for tag %s: %w", ...)` text with the wrapped
`parseTimestamp` error `"unable to parse timestamp: %s"`; storage-layer error
detail is engine-provided and abstracted. -/
def loadMessage : LoadError → String
  | .badTimestamp lit tag =>
      "invalid timestamp " ++ lit ++ " for tag " ++ tag ++ ": unable to parse timestamp: " ++ lit
  | .storage => "storage error"

/-- The inner loop of `LoadFromReader` over one tag's data points: parse the
timestamp (abort on failure, naming literal and tag), then check/insert/update
via `mergeSample`.  `calls` counts storage merge interactions; the `failAt`
oracle injects a storage error at the given call index. -/
def loadPoints (parseTs : String → Option Int) (failAt : Option Nat) (tag : String) :
    List DataPoint → List Sample → Nat → Nat → Except LoadError (List Sample × Nat × Nat)
  | [], st, cnt, calls => .ok (st, cnt, calls)
  | dp :: rest, st, cnt, calls =>
      match parseTs dp.timestamp with
      | none => .error (.badTimestamp dp.timestamp tag)
      | some ts =>
          if failAt = some calls then .error .storage
          else
            let m := mergeSample st tag ts dp.value dp.quality
            loadPoints parseTs failAt tag rest m.1
              (cnt + (if m.2 then 1 else 0)) (calls + 1)

/-- The outer loop of `LoadFromReader` over the `result` map entries.  Go map
iteration order is unspecified; the embedding fixes the association-list
order. -/
def loadTags (parseTs : String → Option Int) (failAt : Option Nat) :
    List (String × List DataPoint) → List Sample → Nat → Nat →
      Except LoadError (List Sample × Nat × Nat)
  | [], st, cnt, calls => .ok (st, cnt, calls)
  | (tag, pts) :: rest, st, cnt, calls =>
      match loadPoints parseTs failAt tag pts st cnt calls with
      | .error e => .error e
      | .ok (st2, cnt2, calls2) => loadTags parseTs failAt rest st2 cnt2 calls2

/-- `InsertTagIfNotExists`: `INSERT OR IGNORE INTO tags` under the `tag`
primary key — a no-op when the name is already registered, never touching the
existing row. -/
def registerTagIfAbsent (rows : List TagRow) (name createdAt updatedAt source : String) :
    List TagRow :=
  if rows.any (fun t => t.tag == name) then rows
  else rows ++ [⟨name, createdAt, updatedAt, source⟩]

/-- Register a list of names via `registerTagIfAbsent`, left to right. -/
def registerTags (rows : List TagRow) (names : List String) (now source : String) :
    List TagRow :=
  names.foldl (fun acc n => registerTagIfAbsent acc n now now source) rows

/-- Total number of data points in one ingestion unit. -/
def totalPoints (input : List (String × List DataPoint)) : Nat :=
  (input.map (fun p => p.2.length)).sum

/-- `LoadFromReader`: one ingestion unit applied inside a single transaction.
On any error the transaction is rolled back (`defer tx.Rollback()`): the
returned state is the input state.  On success the working store is committed
and the count of inserted/updated rows returned.

Registration of the encountered tag names with `source="load"` is modelled
from the spec: the loader revision in the sources predates the `tags` table
and the current revision (documented in the repository's API notes as
registering each loaded tag with source `"load"` via `InsertTagIfNotExists`)
is not among the source files. -/
def loadFromReader (parseTs : String → Option Int) (failAt : Option Nat) (now : String)
    (input : List (String × List DataPoint)) (db : DBState) :
    DBState × Except LoadError Nat :=
  match loadTags parseTs failAt input db.raws 0 0 with
  | .error e => (db, .error e)
  | .ok (st, cnt, _) =>
      ({ raws := st, tags := registerTags db.tags (input.map Prod.fst) now "load" }, .ok cnt)

theorem loadPoints_ok_parses {parseTs : String → Option Int} {failAt : Option Nat} {tag : String} :
    ∀ (pts : List DataPoint) (st : List Sample) (cnt calls : Nat) out,
      loadPoints parseTs failAt tag pts st cnt calls = .ok out →
      ∀ dp ∈ pts, parseTs dp.timestamp ≠ none := by
  intro pts
  induction pts with
  | nil => intro st cnt calls out h dp hdp; simp at hdp
  | cons dp0 rest ih =>
      intro st cnt calls out h dp hdp
      rcases hp : parseTs dp0.timestamp with _ | ts
      · simp only [loadPoints, hp] at h
        exact Except.noConfusion h
      · simp only [loadPoints, hp] at h
        by_cases hf : failAt = some calls
        · rw [if_pos hf] at h; exact Except.noConfusion h
        · rw [if_neg hf] at h
          rcases List.mem_cons.mp hdp with h1 | h1
          · subst h1; simp [hp]
          · exact ih _ _ _ _ h dp h1

theorem loadPoints_error_none {parseTs : String → Option Int} {tag : String} :
    ∀ (pts : List DataPoint) (st : List Sample) (cnt calls : Nat) e,
      loadPoints parseTs none tag pts st cnt calls = .error e →
      ∃ dp ∈ pts, parseTs dp.timestamp = none ∧ e = .badTimestamp dp.timestamp tag := by
  intro pts
  induction pts with
  | nil => intro st cnt calls e h; simp [loadPoints] at h
  | cons dp0 rest ih =>
      intro st cnt calls e h
      rcases hp : parseTs dp0.timestamp with _ | ts
      · simp only [loadPoints, hp] at h
        injection h with h
        exact ⟨dp0, by simp, hp, h.symm⟩
      · simp only [loadPoints, hp] at h
        rw [if_neg (by simp)] at h
        obtain ⟨dp, hdp, h1, h2⟩ := ih _ _ _ _ h
        exact ⟨dp, by simp [hdp], h1, h2⟩

theorem loadPoints_ok_calls {parseTs : String → Option Int} {failAt : Option Nat} {tag : String} :
    ∀ (pts : List DataPoint) (st : List Sample) (cnt calls : Nat) st2 cnt2 calls2,
      loadPoints parseTs failAt tag pts st cnt calls = .ok (st2, cnt2, calls2) →
      calls2 = calls + pts.length := by
  intro pts
  induction pts with
  | nil =>
      intro st cnt calls st2 cnt2 calls2 h
      simp only [loadPoints, Except.ok.injEq, Prod.mk.injEq] at h
      obtain ⟨h1, h2, h3⟩ := h
      simp [h3]
  | cons dp0 rest ih =>
      intro st cnt calls st2 cnt2 calls2 h
      rcases hp : parseTs dp0.timestamp with _ | ts
      · simp only [loadPoints, hp] at h
        exact Except.noConfusion h
      · simp only [loadPoints, hp] at h
        by_cases hf : failAt = some calls
        · rw [if_pos hf] at h; exact Except.noConfusion h
        · rw [if_neg hf] at h
          have := ih _ _ _ _ _ _ h
          simp [this]
          omega

theorem loadPoints_fail_oracle {parseTs : String → Option Int} {tag : String} (n : Nat) :
    ∀ (pts : List DataPoint) (st : List Sample) (cnt calls : Nat),
      calls ≤ n → n < calls + pts.length →
      (loadPoints parseTs (some n) tag pts st cnt calls).isOk = false := by
  intro pts
  induction pts with
  | nil => intro st cnt calls h1 h2; simp at h2; omega
  | cons dp0 rest ih =>
      intro st cnt calls h1 h2
      rcases hp : parseTs dp0.timestamp with _ | ts
      · simp [loadPoints, hp, Except.isOk, Except.toBool]
      · simp only [loadPoints, hp]
        by_cases hf : n = calls
        · rw [if_pos (by simp [hf])]
          simp [Except.isOk, Except.toBool]
        · rw [if_neg (by simp [hf])]
          apply ih
          · omega
          · simp at h2; omega

theorem loadTags_error_none {parseTs : String → Option Int} :
    ∀ (input : List (String × List DataPoint)) (st : List Sample) (cnt calls : Nat) e,
      loadTags parseTs none input st cnt calls = .error e →
      ∃ tag pts dp, (tag, pts) ∈ input ∧ dp ∈ pts ∧ parseTs dp.timestamp = none ∧
        e = .badTimestamp dp.timestamp tag := by
  intro input
  induction input with
  | nil => intro st cnt calls e h; simp [loadTags] at h
  | cons p rest ih =>
      intro st cnt calls e h
      obtain ⟨tag, pts⟩ := p
      cases hlp : loadPoints parseTs none tag pts st cnt calls with
      | error e0 =>
          simp only [loadTags, hlp] at h
          injection h with h
          obtain ⟨dp, hdp, h1, h2⟩ := loadPoints_error_none pts _ _ _ _ hlp
          exact ⟨tag, pts, dp, by simp, hdp, h1, by rw [← h, h2]⟩
      | ok out =>
          obtain ⟨st2, cnt2, calls2⟩ := out
          simp only [loadTags, hlp] at h
          obtain ⟨tag2, pts2, dp, hmem, hdp, h1, h2⟩ := ih _ _ _ _ h
          exact ⟨tag2, pts2, dp, by simp [hmem], hdp, h1, h2⟩

theorem loadTags_malformed_error {parseTs : String → Option Int} :
    ∀ (input : List (String × List DataPoint)) (st : List Sample) (cnt calls : Nat),
      (∃ p ∈ input, ∃ dp ∈ p.2, parseTs dp.timestamp = none) →
      ∃ e, loadTags parseTs none input st cnt calls = .error e := by
  intro input
  induction input with
  | nil => intro st cnt calls h; simp at h
  | cons p rest ih =>
      intro st cnt calls h
      obtain ⟨tag, pts⟩ := p
      cases hlp : loadPoints parseTs none tag pts st cnt calls with
      | error e0 => exact ⟨e0, by simp [loadTags, hlp]⟩
      | ok out =>
          obtain ⟨st2, cnt2, calls2⟩ := out
          obtain ⟨q, hq, dp, hdp, hparse⟩ := h
          rcases List.mem_cons.mp hq with h1 | h1
          · subst h1
            exact absurd hparse (loadPoints_ok_parses pts _ _ _ _ hlp dp hdp)
          · obtain ⟨e, he⟩ := ih st2 cnt2 calls2 ⟨q, h1, dp, hdp, hparse⟩
            exact ⟨e, by simp [loadTags, hlp, he]⟩

theorem loadTags_fail_oracle {parseTs : String → Option Int} (n : Nat) :
    ∀ (input : List (String × List DataPoint)) (st : List Sample) (cnt calls : Nat),
      calls ≤ n → n < calls + (input.map (fun p => p.2.length)).sum →
      (loadTags parseTs (some n) input st cnt calls).isOk = false := by
  intro input
  induction input with
  | nil => intro st cnt calls h1 h2; simp at h2; omega
  | cons p rest ih =>
      intro st cnt calls h1 h2
      obtain ⟨tag, pts⟩ := p
      cases hlp : loadPoints parseTs (some n) tag pts st cnt calls with
      | error e0 => simp [loadTags, hlp, Except.isOk, Except.toBool]
      | ok out =>
          obtain ⟨st2, cnt2, calls2⟩ := out
          have hcalls := loadPoints_ok_calls pts _ _ _ _ _ _ hlp
          by_cases hin : n < calls + pts.length
          · have := @loadPoints_fail_oracle parseTs tag n pts st cnt calls h1 hin
            rw [hlp] at this
            simp [Except.isOk, Except.toBool] at this
          · simp only [loadTags, hlp]
            apply ih
            · omega
            · simp at h2 ⊢; omega

/-- C3: one ingestion unit is all-or-nothing.  (i) Whenever `LoadFromReader`
fails — malformed timestamp or storage error — the transaction is rolled back
and the state is exactly the input state; (ii) a unit containing a malformed
timestamp literal (with no storage failure injected) is aborted with an error
naming the offending literal and its source tag, rendered as the exact
`invalid timestamp %s for tag %s` message; (iii) a storage failure hit at any
of the unit's merge calls likewise aborts the unit. -/
theorem loadFromReader_all_or_nothing (parseTs : String → Option Int) (failAt : Option Nat)
    (now : String) (input : List (String × List DataPoint)) (db : DBState) :
    (∀ e, (loadFromReader parseTs failAt now input db).2 = .error e →
        (loadFromReader parseTs failAt now input db).1 = db) ∧
    (failAt = none → (∃ p ∈ input, ∃ dp ∈ p.2, parseTs dp.timestamp = none) →
      ∃ tag pts dp, (tag, pts) ∈ input ∧ dp ∈ pts ∧ parseTs dp.timestamp = none ∧
        (loadFromReader parseTs failAt now input db).2 =
          .error (.badTimestamp dp.timestamp tag) ∧
        loadMessage (.badTimestamp dp.timestamp tag) =
          "invalid timestamp " ++ dp.timestamp ++ " for tag " ++ tag ++
            ": unable to parse timestamp: " ++ dp.timestamp) ∧
    (∀ n, failAt = some n → n < totalPoints input →
      (loadFromReader parseTs failAt now input db).2.isOk = false) := by
  refine ⟨?_, ?_, ?_⟩
  · intro e he
    unfold loadFromReader at he ⊢
    cases hlt : loadTags parseTs failAt input db.raws 0 0 with
    | error e0 => simp [hlt]
    | ok out =>
        obtain ⟨st, cnt, calls⟩ := out
        rw [hlt] at he
        simp at he
  · intro hfa hmal
    subst hfa
    obtain ⟨e, he⟩ := loadTags_malformed_error input db.raws 0 0 hmal
    obtain ⟨tag, pts, dp, hmem, hdp, hparse, hbad⟩ := loadTags_error_none input _ _ _ _ he
    refine ⟨tag, pts, dp, hmem, hdp, hparse, ?_, rfl⟩
    unfold loadFromReader
    rw [he, hbad]
  · intro n hfa hlt
    subst hfa
    unfold loadFromReader
    have := @loadTags_fail_oracle parseTs n input db.raws 0 0 (by omega)
      (by unfold totalPoints at hlt; omega)
    cases hl : loadTags parseTs (some n) input db.raws 0 0 with
    | error e0 => simp [Except.isOk, Except.toBool]
    | ok out =>
        rw [hl] at this
        simp [Except.isOk, Except.toBool] at this

/-- Witness for C3: a one-tag unit whose only data point has an unparseable
timestamp literal aborts naming `"not-a-time"` and tag `"T"`. -/
theorem loadFromReader_all_or_nothing_witness :
    ∃ tag pts dp,
      (tag, pts) ∈ [("T", [DataPoint.mk "not-a-time" 1 1])] ∧ dp ∈ pts ∧
      (fun _ => (none : Option Int)) dp.timestamp = none ∧
      (loadFromReader (fun _ => (none : Option Int)) none "now"
        [("T", [DataPoint.mk "not-a-time" 1 1])] ⟨[], []⟩).2 =
        .error (.badTimestamp dp.timestamp tag) ∧
      loadMessage (.badTimestamp dp.timestamp tag) =
        "invalid timestamp " ++ dp.timestamp ++ " for tag " ++ tag ++
          ": unable to parse timestamp: " ++ dp.timestamp :=
  (loadFromReader_all_or_nothing (fun _ => (none : Option Int)) none "now"
      [("T", [DataPoint.mk "not-a-time" 1 1])] ⟨[], []⟩).2.1 rfl
    ⟨("T", [DataPoint.mk "not-a-time" 1 1]), by simp, DataPoint.mk "not-a-time" 1 1, by simp, rfl⟩

/-- ASCII whitespace (space, TAB, LF, VT, FF, CR): the subset of
`unicode.IsSpace` relevant to the CSV fields, written over code points so that
it evaluates structurally. -/
def isSpaceChar (c : Char) : Bool :=
  c.toNat == 32 || c.toNat == 9 || c.toNat == 10 || c.toNat == 11 ||
    c.toNat == 12 || c.toNat == 13

/-- `strings.TrimSpace` (ASCII fragment): drop whitespace from both ends. -/
def strTrim (s : String) : String :=
  ⟨((s.data.dropWhile isSpaceChar).reverse.dropWhile isSpaceChar).reverse⟩

/-- ASCII lower-casing of one character. -/
def charToLower (c : Char) : Char :=
  if 65 ≤ c.toNat ∧ c.toNat ≤ 90 then Char.ofNat (c.toNat + 32) else c

/-- `strings.ToLower` (ASCII fragment; the header keyword `timestamp` is
ASCII). -/
def strToLower (s : String) : String := ⟨s.data.map charToLower⟩

/-- CSV import mode: `override` upserts within the CSV, `replace` deletes each
header tag's rows first. -/
inductive ImportMode where
  | override
  | replace
deriving DecidableEq, Repr

/-- The fixed quality code attached to every CSV-imported sample
(`const importQuality = 3`). -/
def importQuality : Int := 3

/-- Errors raised by `ImportFromCSV`; each constructor carries the data
interpolated into the corresponding `fmt.Errorf` format. -/
inductive CsvErr where
  | empty
  | tooFewColumns
  | badHeaderFirst (got : String)
  | emptyTagName (col : Nat)
  | badColumnCount (row expected got : Nat)
  | emptyTimestamp (row : Nat)
  | badTimestamp (row : Nat) (lit : String)
  | badNumber (row : Nat) (tag lit : String)
deriving DecidableEq, Repr

/-- `allEmpty`: every cell of the row is blank after trimming. -/
def allEmpty (ss : List String) : Bool := ss.all (fun s => strTrim s == "")

/-- Collect the tag names from the header columns after the `timestamp`
column, trimming each and rejecting empty names (error carries the 1-based
column number `i+1`). -/
def collectTags : List String → Nat → Except Nat (List String)
  | [], _ => .ok []
  | s :: rest, col =>
      let t := strTrim s
      if t == "" then .error col
      else
        match collectTags rest (col + 1) with
        | .error c => .error c
        | .ok ts => .ok (t :: ts)

/-- The per-row cell loop of `ImportFromCSV`: for each tag column (0-based
index `i` into the tag list, cell `row[i+1]`), an empty trimmed cell yields
value `0.0`, a non-empty cell must parse as a float, and the sample is written
with `INSERT OR REPLACE` at quality `importQuality`. -/
def processCells (parseFloat : String → Option ℚ) (row : List String) (rowNum : Nat)
    (tsMs : Int) :
    List (Nat × String) → List Sample → Nat → Except CsvErr (List Sample × Nat)
  | [], raws, cnt => .ok (raws, cnt)
  | (i, tag) :: rest, raws, cnt =>
      let valStr := strTrim (row.getD (i + 1) "")
      match (if valStr == "" then some 0 else parseFloat valStr) with
      | none => .error (.badNumber rowNum tag valStr)
      | some value =>
          processCells parseFloat row rowNum tsMs rest
            (insertOrReplace raws ⟨tag, tsMs, value, importQuality⟩) (cnt + 1)

/-- The data-row loop of `ImportFromCSV`: rows that are empty (or all-blank)
are skipped; other rows must have the header's column count and a parseable,
non-blank timestamp, and then every tag column is written. -/
def processRows (parseTsCSV : String → Option Int) (parseFloat : String → Option ℚ)
    (tags : List String) (headerLen : Nat) :
    List (Nat × List String) → List Sample → Nat → Except CsvErr (List Sample × Nat)
  | [], raws, cnt => .ok (raws, cnt)
  | (rowIdx, row) :: rest, raws, cnt =>
      if row.isEmpty || allEmpty row then
        processRows parseTsCSV parseFloat tags headerLen rest raws cnt
      else if row.length ≠ headerLen then
        .error (.badColumnCount (rowIdx + 2) headerLen row.length)
      else
        let tsStr := strTrim (row.headD "")
        if tsStr == "" then .error (.emptyTimestamp (rowIdx + 2))
        else
          match parseTsCSV tsStr with
          | none => .error (.badTimestamp (rowIdx + 2) tsStr)
          | some tsMs =>
              match processCells parseFloat row (rowIdx + 2) tsMs tags.enum raws cnt with
              | .error e => .error e
              | .ok (raws2, cnt2) =>
                  processRows parseTsCSV parseFloat tags headerLen rest raws2 cnt2

/-- `ImportFromCSV`: header validation, optional replace-mode deletion of the
header tags' rows, row processing inside one transaction (rolled back on any
error), and post-commit registration of every header tag with
`source="upload"` via `InsertTagIfNotExists`. -/
def importFromCSV (parseTsCSV : String → Option Int) (parseFloat : String → Option ℚ)
    (now : String) (records : List (List String)) (mode : ImportMode) (db : DBState) :
    DBState × Except CsvErr (Nat × Nat) :=
  match records with
  | [] => (db, .error .empty)
  | header :: rows =>
      if header.length < 2 then (db, .error .tooFewColumns)
      else if strToLower (strTrim (header.headD "")) = "timestamp" then
        match collectTags header.tail 2 with
        | .error c => (db, .error (.emptyTagName c))
        | .ok tags =>
            if rows.isEmpty then
              ({ db with tags := registerTags db.tags tags now "upload" }, .ok (0, tags.length))
            else
              let raws0 :=
                if mode = ImportMode.replace then
                  db.raws.filter (fun r => !tags.contains r.tag)
                else db.raws
              match processRows parseTsCSV parseFloat tags header.length rows.enum raws0 0 with
              | .error e => (db, .error e)
              | .ok (raws2, cnt) =>
                  ({ raws := raws2, tags := registerTags db.tags tags now "upload" },
                    .ok (cnt, tags.length))
      else (db, .error (.badHeaderFirst (header.headD "")))

theorem findSample_insertOrReplace (raws : List Sample) (s : Sample) :
    findSample (insertOrReplace raws s) s.tag s.timestamp = some s := by
  unfold insertOrReplace
  induction raws with
  | nil => simp [findSample, List.find?, sampleKeyMatch]
  | cons hd tl ih =>
      by_cases hm : sampleKeyMatch hd s.tag s.timestamp
      · simpa [List.filter, hm] using ih
      · have hm0 : sampleKeyMatch hd s.tag s.timestamp = false := by simpa using hm
        simpa [findSample, List.find?, List.filter, hm0] using ih

/-- C4 counterexample: a store holds `("T", ts, 5, quality 5)`; a CSV cell for
the same key carries value 1 at the fixed import quality 3.  Quality-based
upsert semantics would keep the existing row (3 < 5), but the import replaces
it with value 1 and quality 3. -/
theorem csv_import_quality_claim_false :
    (importFromCSV
        (fun s => if s = "2025-01-01T00:00:00" then some 1735689600000 else none)
        (fun s => if s = "1" then some (1 : ℚ) else none) "now"
        [["timestamp", "T"], ["2025-01-01T00:00:00", "1"]] ImportMode.override
        ⟨[⟨"T", 1735689600000, 5, 5⟩], []⟩).1.raws = [⟨"T", 1735689600000, 1, 3⟩] ∧
    ¬ (importQuality ≥ 5) := by
  constructor
  · rfl
  · decide

/-- C4 (amended): the CSV import path does not apply quality-based upsert
semantics; every CSV cell is written with `INSERT OR REPLACE` at the
fixed import quality 3, unconditionally overwriting any existing Sample at its
`(tag, timestamp)` key regardless of the existing quality. -/
theorem csv_import_unconditional_overwrite (raws : List Sample) (tag : String)
    (ts : Int) (v : ℚ) :
    findSample (insertOrReplace raws ⟨tag, ts, v, importQuality⟩) tag ts =
      some ⟨tag, ts, v, importQuality⟩ ∧
    ∀ (parseFloat : String → Option ℚ) (row : List String) (rowNum : Nat)
      (rest : List (Nat × String)) (cnt : Nat) (i : Nat),
      strTrim (row.getD (i + 1) "") ≠ "" →
      parseFloat (strTrim (row.getD (i + 1) "")) = some v →
      processCells parseFloat row rowNum ts ((i, tag) :: rest) raws cnt =
        processCells parseFloat row rowNum ts rest
          (insertOrReplace raws ⟨tag, ts, v, importQuality⟩) (cnt + 1) := by
  constructor
  · exact findSample_insertOrReplace raws ⟨tag, ts, v, importQuality⟩
  · intro parseFloat row rowNum rest cnt i hne hv
    have hb : (strTrim (row.getD (i + 1) "") == "") = false := by
      simpa using hne
    simp only [processCells, hb, if_false, hv]
    simp

/-- Witness for the amended C4: a concrete cell with value text `"7"` parsed
as 7 overwrites an existing quality-5 row at the same key. -/
theorem csv_import_unconditional_overwrite_witness :
    processCells (fun s => if s = "7" then some (7 : ℚ) else none) ["x", "7"] 2 50
        [(0, "T")] [⟨"T", 50, 9, 5⟩] 0 =
      processCells (fun s => if s = "7" then some (7 : ℚ) else none) ["x", "7"] 2 50
        [] (insertOrReplace [⟨"T", 50, 9, 5⟩] ⟨"T", 50, 7, importQuality⟩) 1 :=
  (csv_import_unconditional_overwrite [⟨"T", 50, 9, 5⟩] "T" 50 7).2
    (fun s => if s = "7" then some (7 : ℚ) else none) ["x", "7"] 2 [] 0 0
    (by decide) (by decide)

/-- C10: in CSV row processing (i) a blank (empty-after-trim) cell for a tag
column still writes a Sample at that `(tag, timestamp)` with value `0.0` and
the fixed import quality 3; (ii) that write replaces any existing Sample at
the key; (iii) rows that are entirely empty are skipped without any write. -/
theorem csv_empty_cell_writes_zero :
    (∀ (parseFloat : String → Option ℚ) (row : List String) (rowNum : Nat) (ts : Int)
       (rest : List (Nat × String)) (raws : List Sample) (cnt : Nat) (i : Nat) (tag : String),
       strTrim (row.getD (i + 1) "") = "" →
       processCells parseFloat row rowNum ts ((i, tag) :: rest) raws cnt =
         processCells parseFloat row rowNum ts rest
           (insertOrReplace raws ⟨tag, ts, 0, importQuality⟩) (cnt + 1)) ∧
    (∀ (raws : List Sample) (tag : String) (ts : Int),
       findSample (insertOrReplace raws ⟨tag, ts, 0, importQuality⟩) tag ts =
         some ⟨tag, ts, 0, importQuality⟩) ∧
    (∀ (parseTsCSV : String → Option Int) (parseFloat : String → Option ℚ)
       (tags : List String) (headerLen : Nat) (rowIdx : Nat) (row : List String)
       (rest : List (Nat × List String)) (raws : List Sample) (cnt : Nat),
       allEmpty row = true →
       processRows parseTsCSV parseFloat tags headerLen ((rowIdx, row) :: rest) raws cnt =
         processRows parseTsCSV parseFloat tags headerLen rest raws cnt) := by
  refine ⟨?_, ?_, ?_⟩
  · intro parseFloat row rowNum ts rest raws cnt i tag h
    have hb : (strTrim (row.getD (i + 1) "") == "") = true := by simpa using h
    simp only [processCells, hb, if_true]
  · intro raws tag ts
    exact findSample_insertOrReplace raws ⟨tag, ts, 0, importQuality⟩
  · intro parseTsCSV parseFloat tags headerLen rowIdx row rest raws cnt h
    simp only [processRows, h, Bool.or_true, if_true]

/-- Witness for C10: a row `["2025-01-01T00:00:00", ""]` with a blank cell for
tag `"T"` writes `("T", 50, 0.0, quality 3)`, and the row `["", ""]` is
skipped. -/
theorem csv_empty_cell_writes_zero_witness :
    processCells (fun _ => (none : Option ℚ)) ["2025-01-01T00:00:00", ""] 2 50
        [(0, "T")] [] 0 =
      processCells (fun _ => (none : Option ℚ)) ["2025-01-01T00:00:00", ""] 2 50
        [] (insertOrReplace [] ⟨"T", 50, 0, importQuality⟩) 1 ∧
    processRows (fun _ => (none : Option Int)) (fun _ => (none : Option ℚ)) ["T"] 2
        [(0, ["", ""])] [] 0 =
      processRows (fun _ => (none : Option Int)) (fun _ => (none : Option ℚ)) ["T"] 2
        [] [] 0 :=
  ⟨csv_empty_cell_writes_zero.1 (fun _ => (none : Option ℚ)) ["2025-01-01T00:00:00", ""]
      2 50 [] [] 0 0 "T" (by decide),
    csv_empty_cell_writes_zero.2.2 (fun _ => (none : Option Int)) (fun _ => (none : Option ℚ))
      ["T"] 2 0 ["", ""] [] [] 0 (by decide)⟩

/-- C5: tag registration by the writers.  `InsertTagIfNotExists` (`INSERT OR
IGNORE`) registers a name only when it is absent and leaves every existing row
— in particular its `source` — completely unchanged.  On success the feed-file
load path registers every encountered tag name with `source="load"` (the
registration step of the current loader revision is modelled from the spec,
see `loadFromReader`), and the CSV path registers every header tag with
`source="upload"`. -/
theorem writer_tag_registration :
    (∀ (rows : List TagRow) (name c u s : String), (∃ t ∈ rows, t.tag = name) →
        registerTagIfAbsent rows name c u s = rows) ∧
    (∀ (rows : List TagRow) (name c u s : String), (∀ t ∈ rows, t.tag ≠ name) →
        registerTagIfAbsent rows name c u s = rows ++ [⟨name, c, u, s⟩]) ∧
    (∀ (parseTs : String → Option Int) (failAt : Option Nat) (now : String)
       (input : List (String × List DataPoint)) (db : DBState) (cnt : Nat),
        (loadFromReader parseTs failAt now input db).2 = .ok cnt →
        (loadFromReader parseTs failAt now input db).1.tags =
          registerTags db.tags (input.map Prod.fst) now "load") ∧
    (∀ (parseTsCSV : String → Option Int) (parseFloat : String → Option ℚ) (now : String)
       (records : List (List String)) (mode : ImportMode) (db : DBState) (out : Nat × Nat),
        (importFromCSV parseTsCSV parseFloat now records mode db).2 = .ok out →
        ∃ tags, collectTags (records.headD []).tail 2 = .ok tags ∧
          (importFromCSV parseTsCSV parseFloat now records mode db).1.tags =
            registerTags db.tags tags now "upload") := by
  refine ⟨?_, ?_, ?_, ?_⟩
  · intro rows name c u s h
    obtain ⟨t, ht, htn⟩ := h
    have : rows.any (fun t => t.tag == name) = true :=
      List.any_eq_true.mpr ⟨t, ht, by simp [htn]⟩
    simp [registerTagIfAbsent, this]
  · intro rows name c u s h
    have : rows.any (fun t => t.tag == name) = false := by
      rw [← Bool.not_eq_true, List.any_eq_true]
      rintro ⟨t, ht, htn⟩
      exact h t ht (by simpa using htn)
    simp [registerTagIfAbsent, this]
  · intro parseTs failAt now input db cnt h
    unfold loadFromReader at h ⊢
    cases hlt : loadTags parseTs failAt input db.raws 0 0 with
    | error e => rw [hlt] at h; simp at h
    | ok out0 =>
        obtain ⟨st, c2, c3⟩ := out0
        simp
  · intro parseTsCSV parseFloat now records mode db out h
    cases records with
    | nil => simp [importFromCSV] at h
    | cons header rows =>
        unfold importFromCSV at h ⊢
        dsimp only at h ⊢
        by_cases h1 : header.length < 2
        · rw [if_pos h1] at h; simp at h
        · rw [if_neg h1] at h ⊢
          by_cases h2 : strToLower (strTrim (header.headD "")) = "timestamp"
          · rw [if_pos h2] at h ⊢
            cases hct : collectTags header.tail 2 with
            | error c => rw [hct] at h; simp at h
            | ok tags =>
                rw [hct] at h
                dsimp only at h ⊢
                refine ⟨tags, by simp [hct], ?_⟩
                by_cases h3 : rows.isEmpty = true
                · rw [if_pos h3]
                · rw [if_neg h3] at h ⊢
                  cases hpr : processRows parseTsCSV parseFloat tags header.length rows.enum
                      (if mode = ImportMode.replace then
                        db.raws.filter (fun r => !tags.contains r.tag)
                      else db.raws) 0 with
                  | error e => rw [hpr] at h; simp at h
                  | ok out2 =>
                      obtain ⟨raws2, cnt2⟩ := out2
                      rfl
          · rw [if_neg h2] at h; simp at h

/-- Witness for C5: registering an already-present name changes nothing, and
registering a fresh name appends a row with the requested source. -/
theorem writer_tag_registration_witness :
    registerTagIfAbsent [⟨"A", "c1", "u1", "custom"⟩] "A" "c2" "u2" "upload" =
      [⟨"A", "c1", "u1", "custom"⟩] ∧
    registerTagIfAbsent [⟨"A", "c1", "u1", "custom"⟩] "B" "c2" "u2" "load" =
      [⟨"A", "c1", "u1", "custom"⟩] ++ [⟨"B", "c2", "u2", "load"⟩] :=
  ⟨writer_tag_registration.1 [⟨"A", "c1", "u1", "custom"⟩] "A" "c2" "u2" "upload"
      ⟨⟨"A", "c1", "u1", "custom"⟩, by simp, rfl⟩,
    writer_tag_registration.2.1 [⟨"A", "c1", "u1", "custom"⟩] "B" "c2" "u2" "load"
      (by intro t ht; simp at ht; simp [ht])⟩

/-- Default generation window start applied when the configured string is
empty. -/
def defaultStartStr : String := "2025-12-01T00:00:00"

/-- Default generation window end applied when the configured string is
empty. -/
def defaultEndStr : String := "2026-01-31T23:59:59"

/-- The clamp of a generated value into `[minV, maxV]`: the two safety `if`
statements run after value generation (a value below the minimum is pinned to
the minimum, then a value above the maximum is pinned to the maximum). -/
def clampValue (minV maxV v : ℚ) : ℚ :=
  let v1 := if v < minV then minV else v
  if v1 > maxV then maxV else v1

/-- Fixed quality code of every generated sample (`quality := 3`). -/
def genQuality : Int := 3

/-- Threaded generator state: working store, random-stream position and the
running `totalRecords` count. -/
structure GenState where
  store : List Sample
  rng : Nat
  count : Nat

/-- One tag's tick loop (`for minute := 0; minute < totalMinutes; minute++`):
draw the value (bounded random walk from the previous value in sequential
mode, fresh uniform draw otherwise), clamp it into `[minV, maxV]`, and upsert
it through `mergeSample` at quality `genQuality` and timestamp
`startMs + minute·60000`. -/
def genMinutes (minV maxV : ℚ) (useSeq : Bool) (u : Nat → ℚ) (startMs : Int) (tag : String) :
    ℚ → Nat → Nat → GenState → GenState
  | _, _, 0, st => st
  | cur, minute, n + 1, st =>
      let raw := if useSeq then cur * (1 + (u st.rng * 2 - 1) * (3 / 10))
                 else minV + u st.rng * (maxV - minV)
      let v := clampValue minV maxV raw
      let ts := startMs + (minute : Int) * 60000
      let m := mergeSample st.store tag ts v genQuality
      genMinutes minV maxV useSeq u startMs tag v (minute + 1) n
        ⟨m.1, st.rng + 1, st.count + (if m.2 then 1 else 0)⟩

/-- Per-tag generation (`for _, tag := range tags`): blank names are skipped;
in sequential mode one extra draw seeds the tag's base value uniformly in
`[minV, maxV)` before the tick loop starts. -/
def genOneTag (minV maxV : ℚ) (useSeq : Bool) (u : Nat → ℚ) (startMs : Int)
    (totalMinutes : Nat) (st : GenState) (tag : String) : GenState :=
  if tag = "" then st
  else if useSeq then
    let base := minV + u st.rng * (maxV - minV)
    genMinutes minV maxV true u startMs tag base 0 totalMinutes ⟨st.store, st.rng + 1, st.count⟩
  else genMinutes minV maxV false u startMs tag 0 0 totalMinutes st

/-- Validation errors of the generate path; each constructor carries the
offending input interpolated into the corresponding message. -/
inductive GenError where
  | minMax
  | badStart (lit : String)
  | badEnd (lit : String)
  | badRange (s e : String)
deriving DecidableEq, Repr

/-- Rendering of generate-path validation errors; the wrapped `time.Parse`
error text inside the two format messages is abstracted to `parse error`. -/
def genErrorMessage : GenError → String
  | .minMax => "minValue must be less than maxValue"
  | .badStart lit =>
      "invalid generation_start_time format '" ++ lit ++
        "': parse error (expected format: 2006-01-02T15:04:05)"
  | .badEnd lit =>
      "invalid generation_end_time format '" ++ lit ++
        "': parse error (expected format: 2006-01-02T15:04:05)"
  | .badRange s e =>
      "invalid time range: generation_start_time (" ++ s ++
        ") must be before generation_end_time (" ++ e ++ ")"

/-- `GenerateDummyData` (storage-relevant core): default the window strings,
parse them with `time.Parse` (passed in as `parseTime`), require
`start < end`, and only then delete all records and regenerate every tag;
`totalMinutes` is the truncated minute difference plus one.  A validation
failure happens before the delete, so the input store is returned
untouched. -/
def generateDummyData (tags : List String) (minV maxV : ℚ) (useSeq : Bool)
    (startStr endStr : String) (parseTime : String → Option Int) (u : Nat → ℚ)
    (store : List Sample) : List Sample × Except GenError (Nat × Nat) :=
  let effStart := if startStr = "" then defaultStartStr else startStr
  let effEnd := if endStr = "" then defaultEndStr else endStr
  match parseTime effStart with
  | none => (store, .error (.badStart effStart))
  | some startMs =>
      match parseTime effEnd with
      | none => (store, .error (.badEnd effEnd))
      | some endMs =>
          if endMs ≤ startMs then (store, .error (.badRange effStart effEnd))
          else
            let totalMinutes := ((endMs - startMs) / 60000).toNat + 1
            let st := tags.foldl (genOneTag minV maxV useSeq u startMs totalMinutes) ⟨[], 0, 0⟩
            (st.store, .ok (st.count, tags.length))

/-- The HTTP handler's guard in front of the generator: reject
`minValue >= maxValue` before any storage access. -/
def handleGenerate (tags : List String) (minV maxV : ℚ) (useSeq : Bool)
    (startStr endStr : String) (parseTime : String → Option Int) (u : Nat → ℚ)
    (store : List Sample) : List Sample × Except GenError (Nat × Nat) :=
  if maxV ≤ minV then (store, .error .minMax)
  else generateDummyData tags minV maxV useSeq startStr endStr parseTime u store

theorem clampValue_mem {minV maxV : ℚ} (h : minV ≤ maxV) (v : ℚ) :
    minV ≤ clampValue minV maxV v ∧ clampValue minV maxV v ≤ maxV := by
  unfold clampValue
  dsimp only
  by_cases h1 : v < minV
  · rw [if_pos h1]
    by_cases h2 : minV > maxV
    · rw [if_pos h2]; exact ⟨h, le_refl _⟩
    · rw [if_neg h2]; exact ⟨le_refl _, by linarith⟩
  · rw [if_neg h1]
    by_cases h2 : v > maxV
    · rw [if_pos h2]; exact ⟨h, le_refl _⟩
    · rw [if_neg h2]; exact ⟨by linarith, by linarith⟩

theorem mergeSample_values {store : List Sample} {P : ℚ → Prop}
    (hstore : ∀ r ∈ store, P r.value) {tag : String} {ts : Int} {v : ℚ} {q : Int}
    (hv : P v) : ∀ r ∈ (mergeSample store tag ts v q).1, P r.value := by
  unfold mergeSample
  cases hf : findSample store tag ts with
  | none =>
      intro r hr
      rcases List.mem_append.mp hr with h1 | h1
      · exact hstore r h1
      · simp at h1; subst h1; exact hv
  | some e =>
      dsimp only
      by_cases hq : e.quality ≤ q
      · rw [if_pos hq]
        intro r hr
        obtain ⟨r0, hr0, hr0e⟩ := List.mem_map.mp hr
        by_cases hm : sampleKeyMatch r0 tag ts
        · rw [if_pos hm] at hr0e; subst hr0e; exact hv
        · rw [if_neg hm] at hr0e; subst hr0e; exact hstore r0 hr0
      · rw [if_neg hq]
        exact hstore

theorem genMinutes_values {minV maxV : ℚ} (hle : minV ≤ maxV) {useSeq : Bool}
    {u : Nat → ℚ} {startMs : Int} {tag : String} :
    ∀ (n : Nat) (cur : ℚ) (minute : Nat) (st : GenState),
      (∀ r ∈ st.store, minV ≤ r.value ∧ r.value ≤ maxV) →
      ∀ r ∈ (genMinutes minV maxV useSeq u startMs tag cur minute n st).store,
        minV ≤ r.value ∧ r.value ≤ maxV := by
  intro n
  induction n with
  | zero => intro cur minute st hst; exact hst
  | succ n ih =>
      intro cur minute st hst
      rw [genMinutes]
      apply ih
      exact mergeSample_values (P := fun x => minV ≤ x ∧ x ≤ maxV) hst
        (clampValue_mem hle _)

theorem genOneTag_values {minV maxV : ℚ} (hle : minV ≤ maxV) {useSeq : Bool}
    {u : Nat → ℚ} {startMs : Int} {totalMinutes : Nat} {st : GenState} {tag : String}
    (hst : ∀ r ∈ st.store, minV ≤ r.value ∧ r.value ≤ maxV) :
    ∀ r ∈ (genOneTag minV maxV useSeq u startMs totalMinutes st tag).store,
      minV ≤ r.value ∧ r.value ≤ maxV := by
  unfold genOneTag
  by_cases h0 : tag = ""
  · rw [if_pos h0]; exact hst
  · rw [if_neg h0]
    cases useSeq with
    | true => exact genMinutes_values hle totalMinutes _ 0 _ hst
    | false => exact genMinutes_values hle totalMinutes _ 0 _ hst

theorem genFold_values {minV maxV : ℚ} (hle : minV ≤ maxV) {useSeq : Bool}
    {u : Nat → ℚ} {startMs : Int} {totalMinutes : Nat} :
    ∀ (tags : List String) (st : GenState),
      (∀ r ∈ st.store, minV ≤ r.value ∧ r.value ≤ maxV) →
      ∀ r ∈ (tags.foldl (genOneTag minV maxV useSeq u startMs totalMinutes) st).store,
        minV ≤ r.value ∧ r.value ≤ maxV := by
  intro tags
  induction tags with
  | nil => intro st hst; exact hst
  | cons tag rest ih =>
      intro st hst
      exact ih _ (genOneTag_values hle hst)

/-- C7: clamp correctness of sequential generation.  With `min < max` and
every random draw in `[0,1)`: (i) the base value `min + u·(max-min)` seeding
each tag lies in `[min, max]`; (ii) every Sample in the store produced by a
successful sequential-mode generate run has its value in `[min, max]`
inclusive — every tick's value passes through `clampValue`, which pins any
excursion of the random walk to the violated bound. -/
theorem sequential_generation_clamped (minV maxV : ℚ) (u : Nat → ℚ)
    (hlt : minV < maxV) (hu : ∀ i, 0 ≤ u i ∧ u i < 1) :
    (∀ k, minV ≤ minV + u k * (maxV - minV) ∧ minV + u k * (maxV - minV) ≤ maxV) ∧
    (∀ (tags : List String) (startStr endStr : String) (parseTime : String → Option Int)
       (store : List Sample) (n tc : Nat),
       (handleGenerate tags minV maxV true startStr endStr parseTime u store).2 = .ok (n, tc) →
       ∀ r ∈ (handleGenerate tags minV maxV true startStr endStr parseTime u store).1,
         minV ≤ r.value ∧ r.value ≤ maxV) := by
  constructor
  · intro k
    constructor
    · nlinarith [(hu k).1, (hu k).2]
    · nlinarith [(hu k).1, (hu k).2]
  · intro tags startStr endStr parseTime store n tc hok r hr
    unfold handleGenerate generateDummyData at hok hr
    rw [if_neg (not_le.mpr hlt)] at hok hr
    dsimp only at hok hr
    cases hps : parseTime (if startStr = "" then defaultStartStr else startStr) with
    | none => rw [hps] at hok; simp at hok
    | some startMs =>
        rw [hps] at hok hr
        dsimp only at hok hr
        cases hpe : parseTime (if endStr = "" then defaultEndStr else endStr) with
        | none => rw [hpe] at hok; simp at hok
        | some endMs =>
            rw [hpe] at hok hr
            dsimp only at hok hr
            by_cases hre : endMs ≤ startMs
            · rw [if_pos hre] at hok; simp at hok
            · rw [if_neg hre] at hr
              dsimp only at hr
              exact genFold_values (le_of_lt hlt) tags ⟨[], 0, 0⟩
                (by intro r0 h0; simp at h0) r hr

/-- Witness for C7: with range `[0,10]` and the constant draw `1/2`, the base
value is `5`, inside the range. -/
theorem sequential_generation_clamped_witness :
    (0 : ℚ) ≤ 0 + (1 / 2 : ℚ) * (10 - 0) ∧ (0 : ℚ) + (1 / 2 : ℚ) * (10 - 0) ≤ 10 :=
  (sequential_generation_clamped 0 10 (fun _ => 1 / 2) (by norm_num)
    (fun i => by norm_num)).1 0

/-- C9: a generate call with `min ≥ max`, a malformed effective start or end
string, or `start ≥ end` fails before any storage effect — the store comes
back unchanged — with a validation error carrying the offending input and the
corresponding message. -/
theorem generate_validation_aborts (tags : List String) (minV maxV : ℚ) (useSeq : Bool)
    (startStr endStr : String) (parseTime : String → Option Int) (u : Nat → ℚ)
    (store : List Sample)
    (h : maxV ≤ minV ∨
      parseTime (if startStr = "" then defaultStartStr else startStr) = none ∨
      (∃ s, parseTime (if startStr = "" then defaultStartStr else startStr) = some s ∧
        parseTime (if endStr = "" then defaultEndStr else endStr) = none) ∨
      (∃ s e, parseTime (if startStr = "" then defaultStartStr else startStr) = some s ∧
        parseTime (if endStr = "" then defaultEndStr else endStr) = some e ∧ e ≤ s)) :
    (handleGenerate tags minV maxV useSeq startStr endStr parseTime u store).1 = store ∧
    ∃ err, (handleGenerate tags minV maxV useSeq startStr endStr parseTime u store).2 =
        .error err ∧
      (err = GenError.minMax ∧
          genErrorMessage err = "minValue must be less than maxValue" ∨
        err = GenError.badStart (if startStr = "" then defaultStartStr else startStr) ∧
          genErrorMessage err =
            "invalid generation_start_time format '" ++
              (if startStr = "" then defaultStartStr else startStr) ++
              "': parse error (expected format: 2006-01-02T15:04:05)" ∨
        err = GenError.badEnd (if endStr = "" then defaultEndStr else endStr) ∧
          genErrorMessage err =
            "invalid generation_end_time format '" ++
              (if endStr = "" then defaultEndStr else endStr) ++
              "': parse error (expected format: 2006-01-02T15:04:05)" ∨
        err = GenError.badRange (if startStr = "" then defaultStartStr else startStr)
            (if endStr = "" then defaultEndStr else endStr) ∧
          genErrorMessage err =
            "invalid time range: generation_start_time (" ++
              (if startStr = "" then defaultStartStr else startStr) ++
              ") must be before generation_end_time (" ++
              (if endStr = "" then defaultEndStr else endStr) ++ ")") := by
  by_cases hmm : maxV ≤ minV
  · unfold handleGenerate
    rw [if_pos hmm]
    exact ⟨rfl, .minMax, rfl, Or.inl ⟨rfl, rfl⟩⟩
  · unfold handleGenerate generateDummyData
    rw [if_neg hmm]
    dsimp only
    rcases h with h | h | ⟨s, hs, he⟩ | ⟨s, e, hs, he, hle⟩
    · exact absurd h hmm
    · rw [h]
      exact ⟨rfl, _, rfl, Or.inr (Or.inl ⟨rfl, rfl⟩)⟩
    · rw [hs, he]
      exact ⟨rfl, _, rfl, Or.inr (Or.inr (Or.inl ⟨rfl, rfl⟩))⟩
    · rw [hs, he]
      dsimp only
      rw [if_pos hle]
      exact ⟨rfl, _, rfl, Or.inr (Or.inr (Or.inr ⟨rfl, rfl⟩))⟩

/-- Witness for C9: `min = 5 ≥ max = 3` aborts with no storage effect. -/
theorem generate_validation_aborts_witness :
    (handleGenerate ["T"] 5 3 false "S" "E" (fun _ => (none : Option Int)) (fun _ => 0)
        [⟨"T", 0, 1, 1⟩]).1 = [⟨"T", 0, 1, 1⟩] :=
  (generate_validation_aborts ["T"] 5 3 false "S" "E" (fun _ => (none : Option Int))
    (fun _ => 0) [⟨"T", 0, 1, 1⟩] (Or.inl (by norm_num))).1

/-- Modelled from the spec: the interval-aware tick walk of the current
generator revision.  Its HTTP handler is among the sources and passes
`intervalMinutes ∈ {1,5,15,30,60}`, but the generator function it calls is
not; the revision that is among the sources walks the same window one minute
at a time (`totalMinutes = ⌊(end-start) in minutes⌋ + 1` ticks), which is the
`stepMs = 60000` instance of this walk.  Walk every tick from `t` to `endMs`
inclusive at `stepMs` spacing; the `stepMs = 0` guard is defensive only,
callers always pass a positive step. -/
def genTicks (endMs : Int) (stepMs : Nat) (t : Int) : List Int :=
  if _h0 : stepMs = 0 then []
  else if _h1 : t ≤ endMs then t :: genTicks endMs stepMs (t + stepMs) else []
termination_by (endMs + 1 - t).toNat
decreasing_by
  omega

theorem genTicks_progression (endMs : Int) (stepMs : Nat) (hs : 0 < stepMs) :
    ∀ (n : Nat) (t : Int), (endMs - t).toNat = n → t ≤ endMs →
      genTicks endMs stepMs t =
        (List.range ((endMs - t).toNat / stepMs + 1)).map
          (fun k : Nat => t + (k : Int) * (stepMs : Int)) := by
  intro n
  induction n using Nat.strong_induction_on with
  | _ n ih =>
      intro t hn ht
      rw [genTicks, dif_neg (by omega), dif_pos ht]
      by_cases h2 : t + stepMs ≤ endMs
      · have hlt : (endMs - (t + stepMs)).toNat < n := by omega
        have hrec := ih _ hlt (t + stepMs) rfl h2
        have hstep : stepMs ≤ (endMs - t).toNat := by omega
        have hBA : (endMs - (t + stepMs)).toNat = (endMs - t).toNat - stepMs := by omega
        have hpos : 0 < (endMs - t).toNat / stepMs := Nat.div_pos hstep hs
        obtain ⟨m, hm⟩ : ∃ m, (endMs - t).toNat / stepMs = m + 1 :=
          ⟨(endMs - t).toNat / stepMs - 1, by omega⟩
        have hsub : ((endMs - t).toNat - stepMs) / stepMs = m := by
          rw [Nat.div_eq_sub_div hs hstep] at hm
          omega
        have hmap : List.map (fun k : Nat => t + (stepMs : Int) + (k : Int) * (stepMs : Int))
            (List.range (m + 1)) =
            List.map ((fun k : Nat => t + (k : Int) * (stepMs : Int)) ∘ Nat.succ)
            (List.range (m + 1)) := by
          apply List.map_congr_left
          intro a ha
          simp only [Function.comp]
          push_cast
          ring
        rw [hrec, hBA, hsub, hm, hmap]
        conv_rhs => rw [List.range_succ_eq_map]
        rw [List.map_cons, List.map_map]
        simp
      · have h0 : (endMs - t).toNat < stepMs := by omega
        rw [Nat.div_eq_of_lt h0]
        rw [genTicks, dif_neg (by omega), dif_neg h2]
        simp [List.range_succ]

/-- C8: tick coverage of a generation run over `[start, end]` at interval `I`
minutes with `start < end`: the walk visits exactly the arithmetic progression
`start, start + I·60000 ms, ...` up to `end` inclusive, and produces exactly
`⌊(end - start) / I⌋ + 1` ticks per tag (durations in milliseconds, interval
`I·60000` milliseconds). -/
theorem generation_tick_count (startMs endMs : Int) (intervalMinutes : Nat)
    (hI : 0 < intervalMinutes) (hse : startMs < endMs) :
    (genTicks endMs (intervalMinutes * 60000) startMs).length =
      (endMs - startMs).toNat / (intervalMinutes * 60000) + 1 ∧
    genTicks endMs (intervalMinutes * 60000) startMs =
      (List.range ((endMs - startMs).toNat / (intervalMinutes * 60000) + 1)).map
        (fun k : Nat => startMs + (k : Int) * ((intervalMinutes * 60000 : Nat) : Int)) := by
  have hs : 0 < intervalMinutes * 60000 := by positivity
  have hprog := genTicks_progression endMs (intervalMinutes * 60000) hs
    (endMs - startMs).toNat startMs rfl (le_of_lt hse)
  refine ⟨?_, hprog⟩
  rw [hprog]
  simp

/-- Witness for C8: a two-minute window at 1-minute spacing has
`120000/60000 + 1 = 3` ticks. -/
theorem generation_tick_count_witness :
    (genTicks 120000 (1 * 60000) 0).length = ((120000 : Int) - 0).toNat / (1 * 60000) + 1 :=
  (generation_tick_count 0 120000 1 (by norm_num) (by norm_num)).1

theorem keysNodup_loadPoints {parseTs : String → Option Int} {failAt : Option Nat}
    {tag : String} :
    ∀ (pts : List DataPoint) (st : List Sample) (cnt calls : Nat) st2 cnt2 calls2,
      loadPoints parseTs failAt tag pts st cnt calls = .ok (st2, cnt2, calls2) →
      KeysNodup st → KeysNodup st2 := by
  intro pts
  induction pts with
  | nil =>
      intro st cnt calls st2 cnt2 calls2 h hst
      simp only [loadPoints, Except.ok.injEq, Prod.mk.injEq] at h
      exact h.1 ▸ hst
  | cons dp0 rest ih =>
      intro st cnt calls st2 cnt2 calls2 h hst
      rcases hp : parseTs dp0.timestamp with _ | ts
      · simp only [loadPoints, hp] at h
        exact Except.noConfusion h
      · simp only [loadPoints, hp] at h
        by_cases hf : failAt = some calls
        · rw [if_pos hf] at h; exact Except.noConfusion h
        · rw [if_neg hf] at h
          exact ih _ _ _ _ _ _ h (keysNodup_mergeSample hst tag ts dp0.value dp0.quality)

theorem keysNodup_loadTags {parseTs : String → Option Int} {failAt : Option Nat} :
    ∀ (input : List (String × List DataPoint)) (st : List Sample) (cnt calls : Nat)
      st2 cnt2 calls2,
      loadTags parseTs failAt input st cnt calls = .ok (st2, cnt2, calls2) →
      KeysNodup st → KeysNodup st2 := by
  intro input
  induction input with
  | nil =>
      intro st cnt calls st2 cnt2 calls2 h hst
      simp only [loadTags, Except.ok.injEq, Prod.mk.injEq] at h
      exact h.1 ▸ hst
  | cons p rest ih =>
      intro st cnt calls st2 cnt2 calls2 h hst
      obtain ⟨tag, pts⟩ := p
      cases hlp : loadPoints parseTs failAt tag pts st cnt calls with
      | error e =>
          simp only [loadTags, hlp] at h
          exact Except.noConfusion h
      | ok out =>
          obtain ⟨stm, cntm, callsm⟩ := out
          simp only [loadTags, hlp] at h
          exact ih _ _ _ _ _ _ h (keysNodup_loadPoints pts _ _ _ _ _ _ hlp hst)

theorem keysNodup_loadFromReader {parseTs : String → Option Int} {failAt : Option Nat}
    {now : String} {input : List (String × List DataPoint)} {db : DBState}
    (h : KeysNodup db.raws) :
    KeysNodup (loadFromReader parseTs failAt now input db).1.raws := by
  unfold loadFromReader
  cases hlt : loadTags parseTs failAt input db.raws 0 0 with
  | error e => exact h
  | ok out =>
      obtain ⟨st, cnt, calls⟩ := out
      exact keysNodup_loadTags input _ _ _ _ _ _ hlt h

theorem keysNodup_genMinutes {minV maxV : ℚ} {useSeq : Bool} {u : Nat → ℚ}
    {startMs : Int} {tag : String} :
    ∀ (n : Nat) (cur : ℚ) (minute : Nat) (st : GenState), KeysNodup st.store →
      KeysNodup (genMinutes minV maxV useSeq u startMs tag cur minute n st).store := by
  intro n
  induction n with
  | zero => intro cur minute st hst; exact hst
  | succ n ih =>
      intro cur minute st hst
      rw [genMinutes]
      exact ih _ _ _ (keysNodup_mergeSample hst tag _ _ _)

theorem keysNodup_genOneTag {minV maxV : ℚ} {useSeq : Bool} {u : Nat → ℚ}
    {startMs : Int} {totalMinutes : Nat} {st : GenState} {tag : String}
    (hst : KeysNodup st.store) :
    KeysNodup (genOneTag minV maxV useSeq u startMs totalMinutes st tag).store := by
  unfold genOneTag
  by_cases h0 : tag = ""
  · rw [if_pos h0]; exact hst
  · rw [if_neg h0]
    cases useSeq with
    | true => exact keysNodup_genMinutes totalMinutes _ 0 _ hst
    | false => exact keysNodup_genMinutes totalMinutes _ 0 _ hst

theorem keysNodup_genFold {minV maxV : ℚ} {useSeq : Bool} {u : Nat → ℚ}
    {startMs : Int} {totalMinutes : Nat} :
    ∀ (tags : List String) (st : GenState), KeysNodup st.store →
      KeysNodup ((tags.foldl (genOneTag minV maxV useSeq u startMs totalMinutes) st)).store := by
  intro tags
  induction tags with
  | nil => intro st hst; exact hst
  | cons tag rest ih => intro st hst; exact ih _ (keysNodup_genOneTag hst)

theorem keysNodup_handleGenerate {tags : List String} {minV maxV : ℚ} {useSeq : Bool}
    {startStr endStr : String} {parseTime : String → Option Int} {u : Nat → ℚ}
    {store : List Sample} (h : KeysNodup store) :
    KeysNodup (handleGenerate tags minV maxV useSeq startStr endStr parseTime u store).1 := by
  unfold handleGenerate generateDummyData
  by_cases hmm : maxV ≤ minV
  · rw [if_pos hmm]; exact h
  · rw [if_neg hmm]
    dsimp only
    cases parseTime (if startStr = "" then defaultStartStr else startStr) with
    | none => exact h
    | some startMs =>
        cases parseTime (if endStr = "" then defaultEndStr else endStr) with
        | none => exact h
        | some endMs =>
            dsimp only
            by_cases hre : endMs ≤ startMs
            · rw [if_pos hre]; exact h
            · rw [if_neg hre]
              exact keysNodup_genFold tags ⟨[], 0, 0⟩ List.Pairwise.nil

theorem keysNodup_processCells {parseFloat : String → Option ℚ} {row : List String}
    {rowNum : Nat} {tsMs : Int} :
    ∀ (cols : List (Nat × String)) (raws : List Sample) (cnt : Nat) raws2 cnt2,
      processCells parseFloat row rowNum tsMs cols raws cnt = .ok (raws2, cnt2) →
      KeysNodup raws → KeysNodup raws2 := by
  intro cols
  induction cols with
  | nil =>
      intro raws cnt raws2 cnt2 h hr
      simp only [processCells, Except.ok.injEq, Prod.mk.injEq] at h
      exact h.1 ▸ hr
  | cons c rest ih =>
      intro raws cnt raws2 cnt2 h hr
      obtain ⟨i, tag⟩ := c
      simp only [processCells] at h
      rcases hv : (if strTrim (row.getD (i + 1) "") == "" then some 0
          else parseFloat (strTrim (row.getD (i + 1) ""))) with _ | v
      · rw [hv] at h; exact Except.noConfusion h
      · rw [hv] at h
        exact ih _ _ _ _ h (keysNodup_insertOrReplace hr _)

theorem keysNodup_processRows {parseTsCSV : String → Option Int}
    {parseFloat : String → Option ℚ} {tags : List String} {headerLen : Nat} :
    ∀ (rows : List (Nat × List String)) (raws : List Sample) (cnt : Nat) raws2 cnt2,
      processRows parseTsCSV parseFloat tags headerLen rows raws cnt = .ok (raws2, cnt2) →
      KeysNodup raws → KeysNodup raws2 := by
  intro rows
  induction rows with
  | nil =>
      intro raws cnt raws2 cnt2 h hr
      simp only [processRows, Except.ok.injEq, Prod.mk.injEq] at h
      exact h.1 ▸ hr
  | cons rr rest ih =>
      intro raws cnt raws2 cnt2 h hr
      obtain ⟨rowIdx, row⟩ := rr
      simp only [processRows] at h
      by_cases hsk : row.isEmpty || allEmpty row
      · rw [if_pos hsk] at h
        exact ih _ _ _ _ h hr
      · rw [if_neg hsk] at h
        by_cases hlen : row.length ≠ headerLen
        · rw [if_pos hlen] at h; exact Except.noConfusion h
        · rw [if_neg hlen] at h
          by_cases hts : strTrim (row.headD "") == ""
          · rw [if_pos hts] at h; exact Except.noConfusion h
          · rw [if_neg hts] at h
            rcases hp : parseTsCSV (strTrim (row.headD "")) with _ | tsMs
            · rw [hp] at h; exact Except.noConfusion h
            · rw [hp] at h
              dsimp only at h
              rcases hpc : processCells parseFloat row (rowIdx + 2) tsMs tags.enum raws cnt
                  with e | out
              · rw [hpc] at h; exact Except.noConfusion h
              · obtain ⟨rawsm, cntm⟩ := out
                rw [hpc] at h
                exact ih _ _ _ _ h (keysNodup_processCells tags.enum _ _ _ _ hpc hr)

theorem keysNodup_importFromCSV {parseTsCSV : String → Option Int}
    {parseFloat : String → Option ℚ} {now : String} {records : List (List String)}
    {mode : ImportMode} {db : DBState} (h : KeysNodup db.raws) :
    KeysNodup (importFromCSV parseTsCSV parseFloat now records mode db).1.raws := by
  cases records with
  | nil => exact h
  | cons header rows =>
      unfold importFromCSV
      dsimp only
      by_cases h1 : header.length < 2
      · rw [if_pos h1]; exact h
      · rw [if_neg h1]
        by_cases h2 : strToLower (strTrim (header.headD "")) = "timestamp"
        · rw [if_pos h2]
          cases hct : collectTags header.tail 2 with
          | error c => exact h
          | ok tags =>
              dsimp only
              by_cases h3 : rows.isEmpty = true
              · rw [if_pos h3]; exact h
              · rw [if_neg h3]
                have hr0 : KeysNodup (if mode = ImportMode.replace then
                    db.raws.filter (fun r => !tags.contains r.tag) else db.raws) := by
                  by_cases hm : mode = ImportMode.replace
                  · rw [if_pos hm]; exact keysNodup_filter h _
                  · rw [if_neg hm]; exact h
                cases hpr : processRows parseTsCSV parseFloat tags header.length rows.enum
                    (if mode = ImportMode.replace then
                      db.raws.filter (fun r => !tags.contains r.tag)
                    else db.raws) 0 with
                | error e => exact h
                | ok out =>
                    obtain ⟨raws2, cnt⟩ := out
                    exact keysNodup_processRows rows.enum _ _ _ _ hpr hr0
        · rw [if_neg h2]; exact h

/-- The write operations of the system, each acting on the database state:
feed-file ingestion, dummy-data generation (which deletes all rows first),
CSV import, tag deletion (cascading to the tag's samples, `DeleteTagData`) and
delete-all (`DeleteAllRecords`). -/
inductive StoreOp where
  | load (parseTs : String → Option Int) (failAt : Option Nat) (now : String)
      (input : List (String × List DataPoint))
  | generate (tags : List String) (minV maxV : ℚ) (useSeq : Bool)
      (startStr endStr : String) (parseTime : String → Option Int) (u : Nat → ℚ)
  | csvImport (parseTsCSV : String → Option Int) (parseFloat : String → Option ℚ)
      (now : String) (records : List (List String)) (mode : ImportMode)
  | deleteTag (tag : String)
  | deleteAll

/-- Apply one write operation to the database state, keeping the resulting
state (counts and errors projected away; failed units leave the state
unchanged by construction of the individual operations). -/
def applyOp (db : DBState) : StoreOp → DBState
  | .load parseTs failAt now input => (loadFromReader parseTs failAt now input db).1
  | .generate tags minV maxV useSeq ss es pt u =>
      { db with raws := (handleGenerate tags minV maxV useSeq ss es pt u db.raws).1 }
  | .csvImport ptc pf now records mode => (importFromCSV ptc pf now records mode db).1
  | .deleteTag tag =>
      { raws := db.raws.filter (fun r => !(r.tag == tag)),
        tags := db.tags.filter (fun t => !(t.tag == tag)) }
  | .deleteAll => { db with raws := [] }

/-- Apply a sequence of write operations left to right. -/
def applyOps (db : DBState) (ops : List StoreOp) : DBState := ops.foldl applyOp db

theorem keysNodup_applyOp {db : DBState} (h : KeysNodup db.raws) (op : StoreOp) :
    KeysNodup (applyOp db op).raws := by
  cases op with
  | load parseTs failAt now input => exact keysNodup_loadFromReader h
  | generate tags minV maxV useSeq ss es pt u => exact keysNodup_handleGenerate h
  | csvImport ptc pf now records mode => exact keysNodup_importFromCSV h
  | deleteTag tag => exact keysNodup_filter h _
  | deleteAll => exact List.Pairwise.nil

theorem keysNodup_applyOps :
    ∀ (ops : List StoreOp) (db : DBState), KeysNodup db.raws →
      KeysNodup (applyOps db ops).raws := by
  intro ops
  induction ops with
  | nil => intro db h; exact h
  | cons op rest ih => intro db h; exact ih _ (keysNodup_applyOp h op)

/-- C2: key uniqueness.  Starting from the freshly migrated empty store, after
any sequence of feed merges, generate runs, CSV imports and deletions the
Sample store holds at most one Sample per `(tag, timestamp)` pair. -/
theorem store_unique_keys (ops : List StoreOp) :
    UniqueKeys (applyOps ⟨[], []⟩ ops).raws :=
  keysNodup_uniqueKeys (keysNodup_applyOps ops ⟨[], []⟩ List.Pairwise.nil)

/-- Decimal digits of a natural number, least significant first. -/
def digitsRevAux : Nat → Nat → List Nat
  | 0, n => [n % 10]
  | fuel + 1, n => if n < 10 then [n] else n % 10 :: digitsRevAux fuel (n / 10)

def digitsRev (n : Nat) : List Nat := digitsRevAux n n

theorem digitsRevAux_irrel : ∀ (f1 f2 n : Nat), n ≤ f1 → n ≤ f2 →
    digitsRevAux f1 n = digitsRevAux f2 n := by
  intro f1
  induction f1 with
  | zero =>
      intro f2 n h1 h2
      have hn : n = 0 := by omega
      subst hn
      cases f2 with
      | zero => rfl
      | succ k => simp [digitsRevAux]
  | succ f ih =>
      intro f2 n h1 h2
      cases f2 with
      | zero =>
          have hn : n = 0 := by omega
          subst hn
          simp [digitsRevAux]
      | succ k =>
          simp only [digitsRevAux]
          by_cases h10 : n < 10
          · rw [if_pos h10, if_pos h10]
          · rw [if_neg h10, if_neg h10]
            have hd : n / 10 ≤ f := by omega
            have hd2 : n / 10 ≤ k := by omega
            rw [ih k (n / 10) hd hd2]

theorem digitsRev_eq (n : Nat) :
    digitsRev n = if n < 10 then [n] else n % 10 :: digitsRev (n / 10) := by
  show digitsRevAux n n = _
  by_cases h10 : n < 10
  · cases n with
    | zero => simp [digitsRevAux]
    | succ m =>
        simp only [digitsRevAux]
        rw [if_pos h10, if_pos h10]
  · cases n with
    | zero => omega
    | succ m =>
        simp only [digitsRevAux]
        rw [if_neg h10, if_neg h10]
        have : (m + 1) / 10 ≤ m := by omega
        rw [digitsRevAux_irrel m ((m + 1) / 10) ((m + 1) / 10) this le_rfl]
        rfl

/-- Decimal digits, most significant first. -/
def natDigits (n : Nat) : List Nat := (digitsRev n).reverse

/-- The ASCII character of one decimal digit. -/
def digitChar (d : Nat) : Char := Char.ofNat (48 + d)

/-- Decimal rendering of a natural number (SQLite integer-to-text and Go
`%d`). -/
def natToStr (n : Nat) : String := ⟨(natDigits n).map digitChar⟩

/-- Left-pad a character list with `'0'` to the given width. -/
def padLeft (w : Nat) (l : List Char) : List Char := List.replicate (w - l.length) '0' ++ l

/-- `%04d` (and `strftime` `%Y`) of a natural number. -/
def pad4 (n : Nat) : String := ⟨padLeft 4 ((natDigits n).map digitChar)⟩

/-- `%02d` (and `strftime` `%m`, `%d`) of a natural number. -/
def pad2 (n : Nat) : String := ⟨padLeft 2 ((natDigits n).map digitChar)⟩

/-- `%04d` over a possibly-signed year; negative years do not occur in the
verified range, the sign branch is for totality only. -/
def pad4i (y : Int) : String := if y < 0 then "-" ++ pad4 (-y).toNat else pad4 y.toNat

/-- Numeric value of an ASCII digit character. -/
def charDigit (c : Char) : Nat := c.toNat - 48

/-- ASCII digit test. -/
def isDigitChar (c : Char) : Bool := 48 ≤ c.toNat && c.toNat ≤ 57

/-- `strconv.Atoi` restricted to unsigned decimal input, with the error result
collapsed to `0` as in `q, _ := strconv.Atoi(...)` (the strings fed to it in
the verified range are unsigned decimals). -/
def goAtoi (s : String) : Nat :=
  if s.data ≠ [] ∧ s.data.all isDigitChar then
    s.data.foldl (fun a c => 10 * a + charDigit c) 0
  else 0

theorem digitsRev_ne_nil (n : Nat) : digitsRev n ≠ [] := by
  rw [digitsRev_eq]
  split <;> simp

theorem digitsRev_lt10 : ∀ (n : Nat), ∀ d ∈ digitsRev n, d < 10 := by
  intro n
  induction n using Nat.strong_induction_on with
  | _ n ih =>
      intro d hd
      rw [digitsRev_eq] at hd
      by_cases h : n < 10
      · rw [if_pos h] at hd; simp at hd; omega
      · rw [if_neg h] at hd
        rcases List.mem_cons.mp hd with h1 | h1
        · omega
        · exact ih (n / 10) (by omega) d h1

theorem digitsRev_length_le : ∀ (k n : Nat), 0 < k → n < 10 ^ k →
    (digitsRev n).length ≤ k := by
  intro k
  induction k with
  | zero => intro n h; omega
  | succ k ih =>
      intro n _ hn
      rw [digitsRev_eq]
      by_cases h : n < 10
      · rw [if_pos h]; simp
      · rw [if_neg h]
        simp only [List.length_cons]
        have hpow : 10 ^ (k + 1) = 10 ^ k * 10 := pow_succ 10 k
        have hq : n / 10 < 10 ^ k := by omega
        have hk : 0 < k := by
          by_contra hk0
          have hz : k = 0 := by omega
          subst hz
          simp at hn
          omega
        have := ih (n / 10) hk hq
        omega

theorem foldr_digitsRev : ∀ (n : Nat), (digitsRev n).foldr (fun d a => 10 * a + d) 0 = n := by
  intro n
  induction n using Nat.strong_induction_on with
  | _ n ih =>
      rw [digitsRev_eq]
      by_cases h : n < 10
      · rw [if_pos h]; simp
      · rw [if_neg h]
        simp only [List.foldr_cons]
        rw [ih (n / 10) (by omega)]
        omega

theorem foldl_natDigits (n : Nat) :
    (natDigits n).foldl (fun a d => 10 * a + d) 0 = n := by
  unfold natDigits
  rw [List.foldl_reverse]
  have h := foldr_digitsRev n
  exact h

theorem foldl_digits_acc : ∀ (l : List Nat) (a : Nat),
    l.foldl (fun a d => 10 * a + d) a =
      a * 10 ^ l.length + l.foldl (fun a d => 10 * a + d) 0 := by
  intro l
  induction l with
  | nil => intro a; simp
  | cons d t ih =>
      intro a
      simp only [List.foldl_cons, List.length_cons]
      rw [ih (10 * a + d), ih (10 * 0 + d)]
      ring

theorem foldl_digits_lt : ∀ (l : List Nat), (∀ d ∈ l, d < 10) →
    l.foldl (fun a d => 10 * a + d) 0 < 10 ^ l.length := by
  intro l
  induction l with
  | nil => intro h; simp
  | cons d t ih =>
      intro h
      simp only [List.foldl_cons, List.length_cons]
      rw [foldl_digits_acc t (10 * 0 + d)]
      have h1 : t.foldl (fun a d => 10 * a + d) 0 < 10 ^ t.length :=
        ih (fun x hx => h x (by simp [hx]))
      have h2 : d < 10 := h d (by simp)
      have h3 : 10 ^ (t.length + 1) = 10 * 10 ^ t.length := by ring
      have h4 : (10 * 0 + d) * 10 ^ t.length ≤ 9 * 10 ^ t.length :=
        Nat.mul_le_mul_right _ (by omega)
      omega

theorem charDigit_digitChar {d : Nat} (h : d < 10) : charDigit (digitChar d) = d := by
  interval_cases d <;> decide

theorem digitChar_toNat {d : Nat} (h : d < 10) : (digitChar d).toNat = 48 + d := by
  interval_cases d <;> decide

theorem isDigitChar_digitChar {d : Nat} (h : d < 10) : isDigitChar (digitChar d) = true := by
  interval_cases d <;> decide

theorem digitChar_ne_dash {d : Nat} (h : d < 10) : digitChar d ≠ '-' := by
  interval_cases d <;> decide

theorem foldl_map_digitChar : ∀ (l : List Nat) (a : Nat), (∀ d ∈ l, d < 10) →
    (l.map digitChar).foldl (fun a c => 10 * a + charDigit c) a =
      l.foldl (fun a d => 10 * a + d) a := by
  intro l
  induction l with
  | nil => intro a h; rfl
  | cons d t ih =>
      intro a h
      simp only [List.map_cons, List.foldl_cons]
      rw [charDigit_digitChar (h d (by simp))]
      exact ih _ (fun x hx => h x (by simp [hx]))

theorem foldl_replicate_zero : ∀ (w : Nat),
    (List.replicate w '0').foldl (fun a c => 10 * a + charDigit c) 0 = 0 := by
  intro w
  induction w with
  | zero => rfl
  | succ w ih =>
      simp only [List.replicate_succ, List.foldl_cons]
      have hc : charDigit '0' = 0 := by decide
      rw [hc]
      simpa using ih

theorem goAtoi_padLeft (w n : Nat) : goAtoi ⟨padLeft w ((natDigits n).map digitChar)⟩ = n := by
  have hd10 : ∀ d ∈ natDigits n, d < 10 := by
    intro d hd
    exact digitsRev_lt10 n d (List.mem_reverse.mp hd)
  have hne : natDigits n ≠ [] := by
    unfold natDigits
    simpa using digitsRev_ne_nil n
  unfold goAtoi padLeft
  rw [if_pos]
  · show (List.replicate (w - _) '0' ++ (natDigits n).map digitChar).foldl _ 0 = n
    rw [List.foldl_append, foldl_replicate_zero, foldl_map_digitChar _ 0 hd10,
      foldl_natDigits]
  · constructor
    · show List.replicate _ '0' ++ (natDigits n).map digitChar ≠ []
      simp [hne]
    · show (List.replicate _ '0' ++ (natDigits n).map digitChar).all isDigitChar = true
      rw [List.all_append, Bool.and_eq_true]
      constructor
      · rw [List.all_eq_true]
        intro x hx
        rw [List.eq_of_mem_replicate hx]
        decide
      · rw [List.all_eq_true]
        intro c hc
        obtain ⟨d, hd, hdc⟩ := List.mem_map.mp hc
        rw [← hdc]
        exact isDigitChar_digitChar (hd10 d hd)

theorem goAtoi_pad4 (n : Nat) : goAtoi (pad4 n) = n := goAtoi_padLeft 4 n

theorem goAtoi_natToStr (n : Nat) : goAtoi (natToStr n) = n := by
  have h := goAtoi_padLeft 0 n
  unfold padLeft at h
  simpa [natToStr] using h

theorem pad4_inj {a b : Nat} (h : pad4 a = pad4 b) : a = b := by
  have := congrArg goAtoi h
  rwa [goAtoi_pad4, goAtoi_pad4] at this

theorem pad_length {w n : Nat} (hw : 0 < w) (h : n < 10 ^ w) :
    (padLeft w ((natDigits n).map digitChar)).length = w := by
  unfold padLeft
  rw [List.length_append, List.length_replicate, List.length_map]
  have h1 : (natDigits n).length ≤ w := by
    unfold natDigits
    rw [List.length_reverse]
    exact digitsRev_length_le w n hw h
  omega

/-- Byte-wise (BINARY-collation) strict comparison of character lists; the
strings compared in the verified range are ASCII, where byte order and code
point order agree. -/
def bytesLt : List Char → List Char → Bool
  | _, [] => false
  | [], _ :: _ => true
  | a :: as, b :: bs =>
      if a.toNat < b.toNat then true
      else if a = b then bytesLt as bs
      else false

theorem char_toNat_inj {a b : Char} (h : a.toNat = b.toNat) : a = b := by
  have := congrArg Char.ofNat h
  rwa [Char.ofNat_toNat, Char.ofNat_toNat] at this

theorem bytesLt_irrefl : ∀ (l : List Char), bytesLt l l = false := by
  intro l
  induction l with
  | nil => rfl
  | cons a t ih => simp [bytesLt, ih]

theorem bytesLt_asymm : ∀ (a b : List Char), bytesLt a b = true → bytesLt b a = false := by
  intro a
  induction a with
  | nil => intro b h; cases b <;> simp [bytesLt] at h ⊢
  | cons x xs ih =>
      intro b h
      cases b with
      | nil => simp [bytesLt] at h
      | cons y ys =>
          simp only [bytesLt] at h ⊢
          by_cases h1 : x.toNat < y.toNat
          · rw [if_neg (by omega)]
            rw [if_neg]
            intro he
            subst he
            omega
          · rw [if_neg h1] at h
            by_cases h2 : x = y
            · rw [if_pos h2] at h
              subst h2
              rw [if_neg (by omega), if_pos rfl]
              exact ih _ h
            · rw [if_neg h2] at h
              exact absurd h (by simp)

theorem bytesLt_trans : ∀ (a b c : List Char),
    bytesLt a b = true → bytesLt b c = true → bytesLt a c = true := by
  intro a
  induction a with
  | nil =>
      intro b c hab hbc
      cases c with
      | nil => cases b <;> simp [bytesLt] at hab hbc
      | cons z zs => simp [bytesLt]
  | cons x xs ih =>
      intro b c hab hbc
      cases b with
      | nil => simp [bytesLt] at hab
      | cons y ys =>
          cases c with
          | nil => simp [bytesLt] at hbc
          | cons z zs =>
              simp only [bytesLt] at hab hbc ⊢
              by_cases h1 : x.toNat < y.toNat
              · by_cases h2 : y.toNat < z.toNat
                · rw [if_pos (by omega)]
                · rw [if_neg h2] at hbc
                  by_cases h3 : y = z
                  · subst h3
                    rw [if_pos h1]
                  · rw [if_neg h3] at hbc
                    exact absurd hbc (by simp)
              · rw [if_neg h1] at hab
                by_cases h4 : x = y
                · rw [if_pos h4] at hab
                  subst h4
                  by_cases h2 : x.toNat < z.toNat
                  · rw [if_pos h2]
                  · rw [if_neg h2] at hbc ⊢
                    by_cases h3 : x = z
                    · rw [if_pos h3] at hbc ⊢
                      exact ih _ _ hab hbc
                    · rw [if_neg h3] at hbc
                      exact absurd hbc (by simp)
                · rw [if_neg h4] at hab
                  exact absurd hab (by simp)

theorem bytesLt_total : ∀ (a b : List Char),
    bytesLt a b = false → bytesLt b a = false → a = b := by
  intro a
  induction a with
  | nil => intro b h1 h2; cases b <;> simp [bytesLt] at h1 ⊢
  | cons x xs ih =>
      intro b h1 h2
      cases b with
      | nil => simp [bytesLt] at h2
      | cons y ys =>
          simp only [bytesLt] at h1 h2
          by_cases ha : x.toNat < y.toNat
          · rw [if_pos ha] at h1; exact absurd h1 (by simp)
          · rw [if_neg ha] at h1
            by_cases hb : y.toNat < x.toNat
            · rw [if_pos hb] at h2; exact absurd h2 (by simp)
            · rw [if_neg hb] at h2
              have hxy : x = y := char_toNat_inj (by omega)
              subst hxy
              rw [if_pos rfl] at h1 h2
              rw [ih _ h1 h2]

theorem bytesLt_digits : ∀ (l1 l2 : List Nat), l1.length = l2.length →
    (∀ d ∈ l1, d < 10) → (∀ d ∈ l2, d < 10) →
    (bytesLt (l1.map digitChar) (l2.map digitChar) = true ↔
      l1.foldl (fun a d => 10 * a + d) 0 < l2.foldl (fun a d => 10 * a + d) 0) := by
  intro l1
  induction l1 with
  | nil =>
      intro l2 hlen h1 h2
      cases l2 with
      | nil => simp [bytesLt]
      | cons y ys => simp at hlen
  | cons x xs ih =>
      intro l2 hlen h1 h2
      cases l2 with
      | nil => simp at hlen
      | cons y ys =>
          simp only [List.length_cons] at hlen
          have hlen2 : xs.length = ys.length := by omega
          have hx : x < 10 := h1 x (by simp)
          have hy : y < 10 := h2 y (by simp)
          have hxs : ∀ d ∈ xs, d < 10 := fun d hd => h1 d (by simp [hd])
          have hys : ∀ d ∈ ys, d < 10 := fun d hd => h2 d (by simp [hd])
          have hvx : xs.foldl (fun a d => 10 * a + d) 0 < 10 ^ xs.length :=
            foldl_digits_lt xs hxs
          have hvy : ys.foldl (fun a d => 10 * a + d) 0 < 10 ^ ys.length :=
            foldl_digits_lt ys hys
          simp only [List.map_cons, bytesLt, List.foldl_cons]
          rw [foldl_digits_acc xs (10 * 0 + x), foldl_digits_acc ys (10 * 0 + y)]
          rw [digitChar_toNat hx, digitChar_toNat hy]
          rw [hlen2]
          have hvx2 : xs.foldl (fun a d => 10 * a + d) 0 < 10 ^ ys.length := hlen2 ▸ hvx
          by_cases hc : x < y
          · rw [if_pos (by omega)]
            simp only [eq_iff_iff, true_iff]
            have h1 : (10 * 0 + x) * 10 ^ ys.length + 10 ^ ys.length ≤
                (10 * 0 + y) * 10 ^ ys.length := by
              have h2 : (10 * 0 + x + 1) * 10 ^ ys.length ≤ (10 * 0 + y) * 10 ^ ys.length :=
                Nat.mul_le_mul_right _ (by omega)
              calc (10 * 0 + x) * 10 ^ ys.length + 10 ^ ys.length
                  = (10 * 0 + x + 1) * 10 ^ ys.length := by ring
                _ ≤ _ := h2
            omega
          · by_cases he : x = y
            · subst he
              rw [if_neg (by omega), if_pos (by rfl)]
              rw [ih ys hlen2 hxs hys]
              constructor
              · intro h; omega
              · intro h; omega
            · rw [if_neg (by omega), if_neg (by
                intro hcc
                exact he (by
                  have := congrArg Char.toNat hcc
                  rw [digitChar_toNat hx, digitChar_toNat hy] at this
                  omega))]
              simp only [Bool.false_eq_true, false_iff]
              have h1 : (10 * 0 + y) * 10 ^ ys.length + 10 ^ ys.length ≤
                  (10 * 0 + x) * 10 ^ ys.length := by
                have h2 : (10 * 0 + y + 1) * 10 ^ ys.length ≤ (10 * 0 + x) * 10 ^ ys.length :=
                  Nat.mul_le_mul_right _ (by omega)
                calc (10 * 0 + y) * 10 ^ ys.length + 10 ^ ys.length
                    = (10 * 0 + y + 1) * 10 ^ ys.length := by ring
                  _ ≤ _ := h2
              omega

theorem padDigits_eq (w n : Nat) :
    padLeft w ((natDigits n).map digitChar) =
      (List.replicate (w - (natDigits n).length) 0 ++ natDigits n).map digitChar := by
  unfold padLeft
  rw [List.map_append, List.map_replicate, List.length_map]
  rfl

theorem foldl_pad_digits (k : Nat) (l : List Nat) :
    (List.replicate k 0 ++ l).foldl (fun a d => 10 * a + d) 0 =
      l.foldl (fun a d => 10 * a + d) 0 := by
  rw [List.foldl_append]
  congr 1
  induction k with
  | zero => rfl
  | succ k ih => simpa [List.replicate_succ] using ih

theorem bytesLt_padLeft_iff {w a b : Nat} (hw : 0 < w) (ha : a < 10 ^ w) (hb : b < 10 ^ w) :
    (bytesLt (padLeft w ((natDigits a).map digitChar))
        (padLeft w ((natDigits b).map digitChar)) = true) ↔ a < b := by
  rw [padDigits_eq, padDigits_eq]
  have hlena : (List.replicate (w - (natDigits a).length) 0 ++ natDigits a).length = w := by
    rw [List.length_append, List.length_replicate]
    have : (natDigits a).length ≤ w := by
      unfold natDigits
      rw [List.length_reverse]
      exact digitsRev_length_le w a hw ha
    omega
  have hlenb : (List.replicate (w - (natDigits b).length) 0 ++ natDigits b).length = w := by
    rw [List.length_append, List.length_replicate]
    have : (natDigits b).length ≤ w := by
      unfold natDigits
      rw [List.length_reverse]
      exact digitsRev_length_le w b hw hb
    omega
  have hda : ∀ d ∈ List.replicate (w - (natDigits a).length) 0 ++ natDigits a, d < 10 := by
    intro d hd
    rcases List.mem_append.mp hd with h | h
    · rw [List.eq_of_mem_replicate h]; omega
    · exact digitsRev_lt10 a d (List.mem_reverse.mp h)
  have hdb : ∀ d ∈ List.replicate (w - (natDigits b).length) 0 ++ natDigits b, d < 10 := by
    intro d hd
    rcases List.mem_append.mp hd with h | h
    · rw [List.eq_of_mem_replicate h]; omega
    · exact digitsRev_lt10 b d (List.mem_reverse.mp h)
  rw [bytesLt_digits _ _ (by rw [hlena, hlenb]) hda hdb]
  rw [foldl_pad_digits, foldl_pad_digits, foldl_natDigits, foldl_natDigits]

theorem bytesLt_pad4_iff {a b : Nat} (ha : a < 10000) (hb : b < 10000) :
    bytesLt (pad4 a).data (pad4 b).data = true ↔ a < b := by
  have := bytesLt_padLeft_iff (w := 4) (a := a) (b := b) (by norm_num)
    (by norm_num; omega) (by norm_num; omega)
  exact this

theorem bytesLt_pad2_iff {a b : Nat} (ha : a < 100) (hb : b < 100) :
    bytesLt (pad2 a).data (pad2 b).data = true ↔ a < b := by
  have := bytesLt_padLeft_iff (w := 2) (a := a) (b := b) (by norm_num)
    (by norm_num; omega) (by norm_num; omega)
  exact this

theorem pad2_inj {a b : Nat} (ha : a < 100) (hb : b < 100) (h : pad2 a = pad2 b) : a = b := by
  by_contra hne
  rcases Nat.lt_or_ge a b with hc | hc
  · have := (bytesLt_pad2_iff ha hb).mpr hc
    rw [h] at this
    rw [bytesLt_irrefl] at this
    exact absurd this (by simp)
  · have hblt : b < a := by omega
    have := (bytesLt_pad2_iff hb ha).mpr hblt
    rw [h] at this
    rw [bytesLt_irrefl] at this
    exact absurd this (by simp)

theorem bytesLt_append_left : ∀ (p s1 s2 : List Char),
    bytesLt (p ++ s1) (p ++ s2) = bytesLt s1 s2 := by
  intro p
  induction p with
  | nil => intro s1 s2; rfl
  | cons c t ih =>
      intro s1 s2
      simp only [List.cons_append, bytesLt]
      simp only [lt_self_iff_false, if_false, eq_self_iff_true, if_true]
      exact ih s1 s2

theorem bytesLt_append_of_lt : ∀ (p1 p2 : List Char), p1.length = p2.length →
    bytesLt p1 p2 = true → ∀ (s1 s2 : List Char),
    bytesLt (p1 ++ s1) (p2 ++ s2) = true := by
  intro p1
  induction p1 with
  | nil =>
      intro p2 hlen h s1 s2
      cases p2 with
      | nil => simp [bytesLt] at h
      | cons y ys => simp at hlen
  | cons x xs ih =>
      intro p2 hlen h s1 s2
      cases p2 with
      | nil => simp at hlen
      | cons y ys =>
          simp only [List.length_cons] at hlen
          simp only [bytesLt, List.cons_append] at h ⊢
          by_cases h1 : x.toNat < y.toNat
          · rw [if_pos h1]
          · rw [if_neg h1] at h ⊢
            by_cases h2 : x = y
            · rw [if_pos h2] at h ⊢
              exact ih ys (by omega) h s1 s2
            · rw [if_neg h2] at h
              exact absurd h (by simp)

/-- A Gregorian calendar date. -/
structure Civil where
  year : Int
  month : Nat
  day : Nat
deriving DecidableEq, Repr

/-- `civil_from_days`: the Gregorian date of a day count since 1970-01-01 UTC
(the standard era-based algorithm; this is the calendar that SQLite's
`datetime(x, 'unixepoch')`/`strftime` computes).  Written for non-negative
inputs (all timestamps in the verified range). -/
def civilFromDays (z0 : Int) : Civil :=
  let z := z0 + 719468
  let era := z / 146097
  let doe := (z - era * 146097).toNat
  let yoe := (doe - doe / 1460 + doe / 36524 - doe / 146096) / 365
  let y : Int := (yoe : Int) + era * 400
  let doy := doe - (365 * yoe + yoe / 4 - yoe / 100)
  let mp := (5 * doy + 2) / 153
  let d := doy - (153 * mp + 2) / 5 + 1
  let m := if mp < 10 then mp + 3 else mp - 9
  ⟨if m ≤ 2 then y + 1 else y, m, d⟩

/-- Civil date of a Unix-millisecond timestamp along SQLite's computation:
`timestamp/1000` seconds (SQL integer division), then days since the epoch. -/
def msToCivil (ms : Int) : Civil := civilFromDays ((ms / 1000) / 86400)

/-- The last millisecond of year 9999 (`9999-12-31T23:59:59.999Z`): the upper
bound of the verified timestamp range (four-digit years). -/
def maxVerifiedMs : Int := 253402300799999

/-- Year-of-era is at most 400 for any day-of-era in one 400-year era. -/
theorem hinnantYoeLe (doe : Nat) (h : doe ≤ 146096) :
    (doe - doe / 1460 + doe / 36524 - doe / 146096) / 365 ≤ 400 := by
  have h1 : doe / 36524 ≤ doe / 1460 := Nat.div_le_div_left (by omega) (by omega)
  have h2 : doe / 146096 ≤ doe / 1460 := Nat.div_le_div_left (by omega) (by omega)
  omega

/-- Away from the last sixty days of an era the year-of-era is at most 399. -/
theorem hinnantYoe399 (doe : Nat) (h : doe ≤ 146036) :
    (doe - doe / 1460 + doe / 36524 - doe / 146096) / 365 ≤ 399 := by
  have h1 : doe / 36524 ≤ doe / 1460 := Nat.div_le_div_left (by omega) (by omega)
  have h2 : doe / 146096 ≤ doe / 1460 := Nat.div_le_div_left (by omega) (by omega)
  omega

/-- The day-of-March-year offset stays small (coarse bound, enough for the
month arithmetic). -/
theorem hinnantDoyLe (doe yoe : Nat) (h : doe ≤ 146096)
    (hy : yoe = (doe - doe / 1460 + doe / 36524 - doe / 146096) / 365) :
    doe - (365 * yoe + yoe / 4 - yoe / 100) ≤ 465 := by
  have h1 : doe / 36524 ≤ doe / 1460 := Nat.div_le_div_left (by omega) (by omega)
  have h2 : yoe / 100 ≤ yoe / 4 := Nat.div_le_div_left (by omega) (by omega)
  omega

/-- Component bounds of the era-based calendar computation, stated over the
intermediate quantities. -/
theorem hinnantMain (z0 : Int) (hz0 : 0 ≤ z0) (hz1 : z0 ≤ 2932896)
    (era : Int) (doe yoe doy mp : Nat) (y : Int)
    (hera : era = (z0 + 719468) / 146097)
    (hdoe : doe = (z0 + 719468 - era * 146097).toNat)
    (hyoe : yoe = (doe - doe / 1460 + doe / 36524 - doe / 146096) / 365)
    (hy : y = (yoe : Int) + era * 400)
    (hdoy : doy = doe - (365 * yoe + yoe / 4 - yoe / 100))
    (hmp : mp = (5 * doy + 2) / 153) :
    0 ≤ (if (if mp < 10 then mp + 3 else mp - 9) ≤ 2 then y + 1 else y) ∧
    (if (if mp < 10 then mp + 3 else mp - 9) ≤ 2 then y + 1 else y) ≤ 9999 ∧
    1 ≤ (if mp < 10 then mp + 3 else mp - 9) ∧
    (if mp < 10 then mp + 3 else mp - 9) ≤ 12 ∧
    1 ≤ doy - (153 * mp + 2) / 5 + 1 ∧ doy - (153 * mp + 2) / 5 + 1 ≤ 31 := by
  have hdoeb : doe ≤ 146096 := by omega
  have heraB : 4 ≤ era ∧ era ≤ 24 := by omega
  have hyoeb : yoe ≤ 400 := by rw [hyoe]; exact hinnantYoeLe doe hdoeb
  have hdoyb : doy ≤ 465 := by rw [hdoy]; exact hinnantDoyLe doe yoe hdoeb hyoe
  have hmpb : mp ≤ 15 := by omega
  have hd31 : doy - (153 * mp + 2) / 5 + 1 ≤ 31 := by clear hera hdoe hyoe hy hdoy; omega
  have hyear : y ≤ 9999 ∧ (10 ≤ mp → y + 1 ≤ 9999) := by
    rcases Int.lt_or_le era 24 with h24 | h24
    · constructor
      · clear hdoy hmp hd31; omega
      · intro _; clear hdoy hmp hd31; omega
    · have hera24 : era = 24 := by omega
      have hdoe36 : doe ≤ 146036 := by clear hyoe hy hdoy hmp; omega
      have h399 : yoe ≤ 399 := by rw [hyoe]; exact hinnantYoe399 doe hdoe36
      constructor
      · clear hdoy hmp hd31; omega
      · intro hmp10
        rcases Nat.lt_or_ge yoe 399 with h398 | h398
        · clear hdoy hmp hd31; omega
        · have h399e : yoe = 399 := by omega
          have hdoy305 : doy ≤ 305 := by clear hyoe hmp hd31; omega
          have : 306 ≤ doy := by clear hyoe hdoy hd31; omega
          omega
  split_ifs <;> omega

/-- Component bounds for `civilFromDays` over the verified day range: the year
is a non-negative four-digit number, the month is in 1..12 and the day in
1..31. -/
theorem civilFromDays_bounds {z0 : Int} (hz0 : 0 ≤ z0) (hz1 : z0 ≤ 2932896) :
    0 ≤ (civilFromDays z0).year ∧ (civilFromDays z0).year ≤ 9999 ∧
    1 ≤ (civilFromDays z0).month ∧ (civilFromDays z0).month ≤ 12 ∧
    1 ≤ (civilFromDays z0).day ∧ (civilFromDays z0).day ≤ 31 := by
  unfold civilFromDays
  dsimp only
  exact hinnantMain z0 hz0 hz1 _ _ _ _ _ _ rfl rfl rfl rfl rfl rfl

theorem msToCivil_bounds {ms : Int} (h0 : 0 ≤ ms) (h1 : ms ≤ maxVerifiedMs) :
    0 ≤ (msToCivil ms).year ∧ (msToCivil ms).year ≤ 9999 ∧
    1 ≤ (msToCivil ms).month ∧ (msToCivil ms).month ≤ 12 ∧
    1 ≤ (msToCivil ms).day ∧ (msToCivil ms).day ≤ 31 := by
  unfold msToCivil
  have hd0 : 0 ≤ (ms / 1000) / 86400 := by positivity
  have hd1 : (ms / 1000) / 86400 ≤ 2932896 := by
    unfold maxVerifiedMs at h1
    omega
  exact civilFromDays_bounds hd0 hd1

/-! ### Aggregated queries (`queryAggregated` / `bucketExpression` /
`bucketToISO`)

The SQL statement built by `queryAggregated` is

`SELECT tag, <bucket> AS bucket, SUM(value), MAX(quality) FROM insight_raws
 WHERE timestamp >= ? AND timestamp <= ? [AND tag IN (...)]
 GROUP BY tag, bucket ORDER BY tag, bucket`

where `<bucket>` is `bucketExpression(aggregate)`: a `strftime` rendering of
the row's UTC civil date (`datetime(timestamp/1000, 'unixepoch')`).  It is
modelled as: filter the rows, render each row's bucket string, group by the
distinct `(tag, bucket)` keys, order the keys by SQLite's BINARY (byte-wise)
collation, and emit one output point per key with the SQL `SUM`/`MAX` over its
group and `bucketToISO` applied to the bucket string.  The Go code appends the
scanned rows per tag into `map[string][]DataPoint`; the model keeps the flat
scan-ordered list of points with their tag, from which each tag's slice is the
subsequence with that tag. -/

/-- The four `aggregate` values for which `bucketExpression` returns a
grouping expression (any other value falls back to the raw query). -/
inductive Grain where
  | daily
  | monthly
  | quarterly
  | yearly
deriving DecidableEq, Repr

/-- SQL quarter number `(cast(strftime('%m', ...) as integer) - 1) / 3 + 1`. -/
def quarterOf (m : Nat) : Nat := (m - 1) / 3 + 1

/-- `strftime` bucket text of a civil date, per granularity: `%Y-%m-%d`,
`%Y-%m`, `%Y || '-' || quarter`, `%Y`.  SQLite renders `%Y` four-digit
zero-padded and the quarter integer in plain decimal. -/
def bucketStrOf (g : Grain) (c : Civil) : String :=
  match g with
  | .daily => pad4i c.year ++ "-" ++ pad2 c.month ++ "-" ++ pad2 c.day
  | .monthly => pad4i c.year ++ "-" ++ pad2 c.month
  | .quarterly => pad4i c.year ++ "-" ++ natToStr (quarterOf c.month)
  | .yearly => pad4i c.year

/-- The bucket string `bucketExpression` computes for one stored row. -/
def sampleBucket (g : Grain) (s : Sample) : String :=
  bucketStrOf g (msToCivil s.timestamp)

/-- `strings.SplitN(s, "-", 2)`: split at the first `'-'`; `none` when no
dash occurs (one part). -/
def splitFirstDash : List Char → Option (List Char × List Char)
  | [] => none
  | c :: rest =>
      if c = '-' then some ([], rest)
      else
        match splitFirstDash rest with
        | none => none
        | some (a, b) => some (c :: a, b)

/-- `bucketToISO`: the bucket-start ISO text the Go code derives from the SQL
bucket string.  Quarterly parses `"YYYY-q"` back with `strconv.Atoi` (errors
ignored, yielding `0`) and renders `%04d-%02d-01T00:00:00` with
`month = (q-1)*3 + 1`, falling back to `bucket + "T00:00:00"` when the split
or the quarter range check fails. -/
def bucketToISO (bucket : String) (g : Grain) : String :=
  match g with
  | .daily => bucket ++ "T00:00:00"
  | .monthly => bucket ++ "-01T00:00:00"
  | .quarterly =>
      match splitFirstDash bucket.data with
      | none => bucket ++ "T00:00:00"
      | some (p0, p1) =>
          let year := goAtoi ⟨p0⟩
          let q := goAtoi ⟨p1⟩
          if q < 1 ∨ 4 < q then bucket ++ "T00:00:00"
          else pad4 year ++ "-" ++ pad2 ((q - 1) * 3 + 1) ++ "-01T00:00:00"
  | .yearly => bucket ++ "-01-01T00:00:00"

/-- The `WHERE` clause: `timestamp >= start AND timestamp <= end`, plus
`tag IN (...)` when a tag filter is supplied. -/
def matchingRows (store : List Sample) (startTs endTs : Int) (tags : List String) :
    List Sample :=
  store.filter fun s =>
    decide (startTs ≤ s.timestamp) && decide (s.timestamp ≤ endTs) &&
      (tags.isEmpty || tags.contains s.tag)

/-- The rows of one `GROUP BY tag, bucket` group. -/
def groupRows (rows : List Sample) (g : Grain) (t b : String) : List Sample :=
  rows.filter fun s => s.tag == t && sampleBucket g s == b

/-- SQL `SUM(value)` over a group. -/
def sumValues (l : List Sample) : ℚ := l.foldl (fun a s => a + s.value) 0

/-- SQL `MAX(quality)` over a (non-empty) group. -/
def maxQuality : List Sample → Int
  | [] => 0
  | s :: rest => rest.foldl (fun a r => max a r.quality) s.quality

/-- One scanned output row: tag, ISO bucket-start text, aggregated value and
quality. -/
structure AggPoint where
  tag : String
  timestamp : String
  value : ℚ
  quality : Int
deriving DecidableEq, Repr

/-- SQLite `ORDER BY tag, bucket` under BINARY collation: byte-wise
lexicographic order on the tag, then on the bucket string. -/
def pairStrLe (x y : String × String) : Prop :=
  bytesLt x.1.data y.1.data = true ∨
    (x.1 = y.1 ∧ bytesLt y.2.data x.2.data = false)

instance : DecidableRel pairStrLe := fun x y => by
  unfold pairStrLe
  exact inferInstance

/-- `queryAggregated` for a granularity that aggregates: the ordered
distinct `(tag, bucket)` keys of the matching rows, one point each. -/
def queryAggregated (store : List Sample) (startTs endTs : Int) (tags : List String)
    (g : Grain) : List AggPoint :=
  ((((matchingRows store startTs endTs tags).map fun s =>
      (s.tag, sampleBucket g s)).dedup).insertionSort pairStrLe).map fun k =>
    ⟨k.1, bucketToISO k.2 g,
      sumValues (groupRows (matchingRows store startTs endTs tags) g k.1 k.2),
      maxQuality (groupRows (matchingRows store startTs endTs tags) g k.1 k.2)⟩

/-- The ISO rendering `YYYY-MM-DDT00:00:00` of a civil date at UTC
midnight. -/
def isoMidnight (c : Civil) : String :=
  pad4i c.year ++ "-" ++ pad2 c.month ++ "-" ++ pad2 c.day ++ "T00:00:00"

/-- The UTC calendar bucket of a civil date, following the specification's
words: the day itself (daily); first day of the month (monthly); day 1 of
month `(quarter-1)*3 + 1` with `quarter = ((month-1) div 3) + 1`
(quarterly); January 1 (yearly). -/
def specBucketStart (g : Grain) (c : Civil) : Civil :=
  match g with
  | .daily => c
  | .monthly => ⟨c.year, c.month, 1⟩
  | .quarterly => ⟨c.year, (quarterOf c.month - 1) * 3 + 1, 1⟩
  | .yearly => ⟨c.year, 1, 1⟩

/-- Chronological strict order on civil dates. -/
def civilLt (a b : Civil) : Prop :=
  a.year < b.year ∨
    (a.year = b.year ∧ (a.month < b.month ∨ (a.month = b.month ∧ a.day < b.day)))

/-- Chronological (non-strict) order on civil dates. -/
def civilLe (a b : Civil) : Prop :=
  a.year < b.year ∨
    (a.year = b.year ∧ (a.month < b.month ∨ (a.month = b.month ∧ a.day ≤ b.day)))

instance : DecidableRel civilLt := fun a b => by
  unfold civilLt
  exact inferInstance

instance : DecidableRel civilLe := fun a b => by
  unfold civilLe
  exact inferInstance

/-- Tag (byte-wise), then bucket chronologically. -/
def pairCivilLe (x y : String × Civil) : Prop :=
  bytesLt x.1.data y.1.data = true ∨ (x.1 = y.1 ∧ civilLe x.2 y.2)

instance : DecidableRel pairCivilLe := fun x y => by
  unfold pairCivilLe
  exact inferInstance

/-- The aggregated result described by the specification: one point per
distinct `(tag, UTC calendar bucket)` pair realised by the matching samples,
ordered by tag and then by bucket chronologically ascending, carrying the sum
of the bucket's values, the maximum of its qualities, and the bucket start
instant (midnight UTC of the bucket's first day) as its timestamp. -/
def specAggregated (store : List Sample) (startTs endTs : Int) (tags : List String)
    (g : Grain) : List AggPoint :=
  ((((matchingRows store startTs endTs tags).map fun s =>
      (s.tag, specBucketStart g (msToCivil s.timestamp))).dedup).insertionSort
        pairCivilLe).map fun k =>
    ⟨k.1, isoMidnight k.2,
      sumValues ((matchingRows store startTs endTs tags).filter fun s =>
        s.tag == k.1 && specBucketStart g (msToCivil s.timestamp) == k.2),
      maxQuality ((matchingRows store startTs endTs tags).filter fun s =>
        s.tag == k.1 && specBucketStart g (msToCivil s.timestamp) == k.2)⟩

/-- Civil dates within the verified rendering range. -/
def InRangeCivil (c : Civil) : Prop :=
  0 ≤ c.year ∧ c.year ≤ 9999 ∧ 1 ≤ c.month ∧ c.month ≤ 12 ∧ 1 ≤ c.day ∧ c.day ≤ 31

/-- The shape a bucket-start date has per granularity (used for injectivity
and monotonicity of the bucket rendering). -/
def BucketShape (g : Grain) (c : Civil) : Prop :=
  match g with
  | .daily => True
  | .monthly => c.day = 1
  | .quarterly => c.day = 1 ∧ c.month % 3 = 1
  | .yearly => c.day = 1 ∧ c.month = 1

theorem pad4i_eq {y : Int} (h : 0 ≤ y) : pad4i y = pad4 y.toNat := by
  unfold pad4i
  rw [if_neg (by omega)]

theorem quarterOf_mem {m : Nat} (h1 : 1 ≤ m) (h2 : m ≤ 12) :
    1 ≤ quarterOf m ∧ quarterOf m ≤ 4 := by
  unfold quarterOf
  omega

theorem quarterOf_start {q : Nat} : quarterOf ((q - 1) * 3 + 1) = q - 1 + 1 := by
  unfold quarterOf
  omega

theorem specBucketStart_range {g : Grain} {c : Civil} (h : InRangeCivil c) :
    InRangeCivil (specBucketStart g c) ∧ BucketShape g (specBucketStart g c) := by
  obtain ⟨h1, h2, h3, h4, h5, h6⟩ := h
  cases g
  · exact ⟨⟨h1, h2, h3, h4, h5, h6⟩, trivial⟩
  · refine ⟨?_, rfl⟩
    simp only [specBucketStart, InRangeCivil]
    omega
  · refine ⟨?_, rfl, ?_⟩
    · simp only [specBucketStart, InRangeCivil, quarterOf]
      omega
    · simp only [specBucketStart, quarterOf]
      omega
  · refine ⟨?_, rfl, rfl⟩
    simp only [specBucketStart, InRangeCivil]
    omega

theorem quarterOf_of_shape {m : Nat} (h : m % 3 = 1) : (quarterOf m - 1) * 3 + 1 = m := by
  unfold quarterOf
  omega

theorem bucketStrOf_specBucketStart (g : Grain) (c : Civil) :
    bucketStrOf g (specBucketStart g c) = bucketStrOf g c := by
  cases g
  · rfl
  · rfl
  · simp only [bucketStrOf, specBucketStart]
    rw [quarterOf_start]
    congr 2
  · rfl

theorem specBucketStart_idem (g : Grain) (c : Civil) :
    specBucketStart g (specBucketStart g c) = specBucketStart g c := by
  cases g
  · rfl
  · rfl
  · simp only [specBucketStart]
    rw [quarterOf_start]
    congr 2
  · rfl

theorem natToStr_digit {a : Nat} (h : a < 10) : (natToStr a).data = [digitChar a] := by
  have hrev : digitsRev a = [a] := by rw [digitsRev_eq, if_pos h]
  unfold natToStr natDigits
  rw [hrev]
  rfl

theorem splitFirstDash_append : ∀ (p : List Char), (∀ c ∈ p, c ≠ '-') →
    ∀ (r : List Char), splitFirstDash (p ++ '-' :: r) = some (p, r) := by
  intro p
  induction p with
  | nil => intro _ r; simp [splitFirstDash]
  | cons x xs ih =>
      intro h r
      have hx : x ≠ '-' := h x (List.mem_cons_self x xs)
      simp only [List.cons_append, splitFirstDash]
      rw [if_neg hx]
      show (match splitFirstDash (xs ++ '-' :: r) with
            | none => none
            | some (a, b) => some (x :: a, b)) = some (x :: xs, r)
      rw [ih (fun c hc => h c (List.mem_cons_of_mem x hc)) r]

theorem pad_no_dash (w n : Nat) :
    ∀ ch ∈ padLeft w ((natDigits n).map digitChar), ch ≠ '-' := by
  intro ch hch
  simp only [padLeft] at hch
  rcases List.mem_append.mp hch with hrep | hdig
  · rw [List.eq_of_mem_replicate hrep]; decide
  · obtain ⟨d, hd, rfl⟩ := List.mem_map.mp hdig
    exact digitChar_ne_dash (digitsRev_lt10 n d (List.mem_reverse.mp hd))

theorem bucketToISO_render {g : Grain} {c : Civil} (h : InRangeCivil c)
    (hs : BucketShape g c) : bucketToISO (bucketStrOf g c) g = isoMidnight c := by
  obtain ⟨h1, h2, h3, h4, h5, h6⟩ := h
  cases g
  · rfl
  · have hd : c.day = 1 := hs
    unfold bucketToISO bucketStrOf isoMidnight
    rw [hd]
    apply String.ext
    simp only [String.data_append, List.append_assoc]
    rfl
  · obtain ⟨hd, hm3⟩ := hs
    have hq := quarterOf_mem h3 h4
    have hy : pad4i c.year = pad4 c.year.toNat := pad4i_eq h1
    have hdata : (bucketStrOf .quarterly c).data =
        padLeft 4 ((natDigits c.year.toNat).map digitChar) ++ '-' ::
          (natToStr (quarterOf c.month)).data := by
      simp only [bucketStrOf, hy, String.data_append, List.append_assoc]
      rfl
    unfold bucketToISO
    rw [hdata, splitFirstDash_append _ (pad_no_dash 4 _) _]
    dsimp only
    rw [show (⟨padLeft 4 ((natDigits c.year.toNat).map digitChar)⟩ : String) =
          pad4 c.year.toNat from rfl,
        show (⟨(natToStr (quarterOf c.month)).data⟩ : String) =
          natToStr (quarterOf c.month) from rfl,
        goAtoi_pad4, goAtoi_natToStr]
    rw [if_neg (by omega)]
    rw [quarterOf_of_shape hm3]
    unfold isoMidnight
    rw [hy, hd]
    apply String.ext
    simp only [String.data_append, List.append_assoc]
    rfl
  · obtain ⟨hd, hm⟩ := hs
    unfold bucketToISO bucketStrOf isoMidnight
    rw [hd, hm]
    apply String.ext
    simp only [String.data_append, List.append_assoc]
    rfl

theorem strEq_of_not_lt {a b : String} (h1 : bytesLt a.data b.data = false)
    (h2 : bytesLt b.data a.data = false) : a = b :=
  String.ext (bytesLt_total a.data b.data h1 h2)

instance : IsTotal (String × String) pairStrLe :=
  ⟨by
    intro x y
    unfold pairStrLe
    by_cases h1 : bytesLt x.1.data y.1.data = true
    · exact Or.inl (Or.inl h1)
    · by_cases h2 : bytesLt y.1.data x.1.data = true
      · exact Or.inr (Or.inl h2)
      · have he : x.1 = y.1 :=
          strEq_of_not_lt (Bool.not_eq_true _ ▸ h1) (Bool.not_eq_true _ ▸ h2)
        by_cases h3 : bytesLt y.2.data x.2.data = true
        · exact Or.inr (Or.inr ⟨he.symm, bytesLt_asymm _ _ h3⟩)
        · exact Or.inl (Or.inr ⟨he, Bool.not_eq_true _ ▸ h3⟩)⟩

instance : IsTrans (String × String) pairStrLe :=
  ⟨by
    intro a b c hab hbc
    unfold pairStrLe at hab hbc ⊢
    rcases hab with h1 | ⟨he1, h1⟩
    · rcases hbc with h2 | ⟨he2, h2⟩
      · exact Or.inl (bytesLt_trans _ _ _ h1 h2)
      · exact Or.inl (he2 ▸ h1)
    · rcases hbc with h2 | ⟨he2, h2⟩
      · exact Or.inl (he1 ▸ h2)
      · refine Or.inr ⟨he1.trans he2, ?_⟩
        by_cases h3 : bytesLt b.2.data c.2.data = true
        · by_cases h4 : bytesLt c.2.data a.2.data = true
          · exact absurd (bytesLt_trans _ _ _ h3 h4) (by simp [h1])
          · exact Bool.not_eq_true _ ▸ h4
        · have he3 : b.2 = c.2 :=
            strEq_of_not_lt (Bool.not_eq_true _ ▸ h3) h2
        
          exact he3 ▸ h1⟩

instance : IsAntisymm (String × String) pairStrLe :=
  ⟨by
    intro a b hab hba
    unfold pairStrLe at hab hba
    rcases hab with h1 | ⟨he1, h1⟩
    · rcases hba with h2 | ⟨he2, h2⟩
      · exact absurd h2 (by simp [bytesLt_asymm _ _ h1])
      · exact absurd (he2 ▸ h1) (by simp [bytesLt_irrefl])
    · rcases hba with h2 | ⟨he2, h2⟩
      · exact absurd (he1 ▸ h2) (by simp [bytesLt_irrefl])
      · exact Prod.ext he1 (strEq_of_not_lt h2 h1)⟩

theorem civilLe_total (a b : Civil) : civilLe a b ∨ civilLe b a := by
  unfold civilLe
  omega

theorem civilLe_trans {a b c : Civil} (h1 : civilLe a b) (h2 : civilLe b c) :
    civilLe a c := by
  unfold civilLe at h1 h2 ⊢
  omega

instance : IsTotal (String × Civil) pairCivilLe :=
  ⟨by
    intro x y
    unfold pairCivilLe
    by_cases h1 : bytesLt x.1.data y.1.data = true
    · exact Or.inl (Or.inl h1)
    · by_cases h2 : bytesLt y.1.data x.1.data = true
      · exact Or.inr (Or.inl h2)
      · have he : x.1 = y.1 :=
          strEq_of_not_lt (Bool.not_eq_true _ ▸ h1) (Bool.not_eq_true _ ▸ h2)
        rcases civilLe_total x.2 y.2 with h3 | h3
        · exact Or.inl (Or.inr ⟨he, h3⟩)
        · exact Or.inr (Or.inr ⟨he.symm, h3⟩)⟩

instance : IsTrans (String × Civil) pairCivilLe :=
  ⟨by
    intro a b c hab hbc
    unfold pairCivilLe at hab hbc ⊢
    rcases hab with h1 | ⟨he1, h1⟩
    · rcases hbc with h2 | ⟨he2, h2⟩
      · exact Or.inl (bytesLt_trans _ _ _ h1 h2)
      · exact Or.inl (he2 ▸ h1)
    · rcases hbc with h2 | ⟨he2, h2⟩
      · exact Or.inl (he1 ▸ h2)
      · exact Or.inr ⟨he1.trans he2, civilLe_trans h1 h2⟩⟩

theorem bytesLt_digit1 {a b : Nat} (ha : a < 10) (hb : b < 10) :
    bytesLt (natToStr a).data (natToStr b).data = true ↔ a < b := by
  interval_cases a <;> interval_cases b <;> decide

theorem civil_trichotomy (a b : Civil) : civilLt a b ∨ a = b ∨ civilLt b a := by
  obtain ⟨a1, a2, a3⟩ := a
  obtain ⟨b1, b2, b3⟩ := b
  simp only [civilLt, Civil.mk.injEq]
  omega

theorem pad4_data_len {n : Nat} (h : n < 10000) : (pad4 n).data.length = 4 :=
  pad_length (by norm_num) (by norm_num; omega)

theorem pad2_data_len {n : Nat} (h : n < 100) : (pad2 n).data.length = 2 :=
  pad_length (by norm_num) (by norm_num; omega)

theorem bytesLt_p4prefix {ya yb : Nat} (h4a : ya < 10000) (h4b : yb < 10000)
    (hlt : ya < yb) (s1 s2 : List Char) :
    bytesLt ((pad4 ya).data ++ s1) ((pad4 yb).data ++ s2) = true :=
  bytesLt_append_of_lt _ _ (by rw [pad4_data_len h4a, pad4_data_len h4b])
    ((bytesLt_pad4_iff h4a h4b).mpr hlt) s1 s2

theorem bytesLt_p2prefix {a b : Nat} (h2a : a < 100) (h2b : b < 100)
    (hlt : a < b) (s1 s2 : List Char) :
    bytesLt ((pad2 a).data ++ s1) ((pad2 b).data ++ s2) = true :=
  bytesLt_append_of_lt _ _ (by rw [pad2_data_len h2a, pad2_data_len h2b])
    ((bytesLt_pad2_iff h2a h2b).mpr hlt) s1 s2

theorem bucketStrOf_lt {g : Grain} {a b : Civil}
    (ha : InRangeCivil a) (hsa : BucketShape g a)
    (hb : InRangeCivil b) (hsb : BucketShape g b) (hlt : civilLt a b) :
    bytesLt (bucketStrOf g a).data (bucketStrOf g b).data = true := by
  obtain ⟨ha1, ha2, ha3, ha4, ha5, ha6⟩ := ha
  obtain ⟨hb1, hb2, hb3, hb4, hb5, hb6⟩ := hb
  have hya : a.year.toNat < 10000 := by omega
  have hyb : b.year.toNat < 10000 := by omega
  have hpa := pad4i_eq ha1
  have hpb := pad4i_eq hb1
  cases g
  · -- daily
    simp only [bucketStrOf, hpa, hpb, String.data_append, List.append_assoc]
    rcases hlt with hY | ⟨hYe, hM | ⟨hMe, hD⟩⟩
    · exact bytesLt_p4prefix hya hyb (by omega) _ _
    · have hyn : a.year.toNat = b.year.toNat := by omega
      rw [hyn, bytesLt_append_left, bytesLt_append_left]
      exact bytesLt_p2prefix (by omega) (by omega) hM _ _
    · have hyn : a.year.toNat = b.year.toNat := by omega
      rw [hyn, hMe, bytesLt_append_left, bytesLt_append_left, bytesLt_append_left,
        bytesLt_append_left]
      exact (bytesLt_pad2_iff (by omega) (by omega)).mpr hD
  · -- monthly
    have hda : a.day = 1 := hsa
    have hdb : b.day = 1 := hsb
    simp only [bucketStrOf, hpa, hpb, String.data_append, List.append_assoc]
    rcases hlt with hY | ⟨hYe, hM | ⟨hMe, hD⟩⟩
    · exact bytesLt_p4prefix hya hyb (by omega) _ _
    · have hyn : a.year.toNat = b.year.toNat := by omega
      rw [hyn, bytesLt_append_left, bytesLt_append_left]
      exact (bytesLt_pad2_iff (by omega) (by omega)).mpr hM
    · omega
  · -- quarterly
    obtain ⟨hda, hma⟩ := hsa
    obtain ⟨hdb, hmb⟩ := hsb
    simp only [bucketStrOf, hpa, hpb, String.data_append, List.append_assoc]
    rcases hlt with hY | ⟨hYe, hM | ⟨hMe, hD⟩⟩
    · exact bytesLt_p4prefix hya hyb (by omega) _ _
    · have hyn : a.year.toNat = b.year.toNat := by omega
      rw [hyn, bytesLt_append_left, bytesLt_append_left]
      have hqa := quarterOf_mem ha3 ha4
      have hqb := quarterOf_mem hb3 hb4
      refine (bytesLt_digit1 (by omega) (by omega)).mpr ?_
      unfold quarterOf
      omega
    · omega
  · -- yearly
    obtain ⟨hda, hma⟩ := hsa
    obtain ⟨hdb, hmb⟩ := hsb
    simp only [bucketStrOf, hpa, hpb]
    rcases hlt with hY | ⟨hYe, hM | ⟨hMe, hD⟩⟩
    · exact (bytesLt_pad4_iff hya hyb).mpr (by omega)
    · omega
    · omega

theorem bucketStrOf_inj {g : Grain} {a b : Civil}
    (ha : InRangeCivil a) (hsa : BucketShape g a)
    (hb : InRangeCivil b) (hsb : BucketShape g b)
    (h : bucketStrOf g a = bucketStrOf g b) : a = b := by
  rcases civil_trichotomy a b with hlt | he | hlt
  · have hc := bucketStrOf_lt ha hsa hb hsb hlt
    rw [h, bytesLt_irrefl] at hc
    exact absurd hc (by simp)
  · exact he
  · have hc := bucketStrOf_lt hb hsb ha hsa hlt
    rw [h, bytesLt_irrefl] at hc
    exact absurd hc (by simp)

theorem dedup_map_of_inj {α β : Type} [DecidableEq α] [DecidableEq β]
    (f : α → β) : ∀ (l : List α), (∀ x ∈ l, ∀ y ∈ l, f x = f y → x = y) →
    (l.map f).dedup = (l.dedup).map f := by
  intro l
  induction l with
  | nil => intro _; rfl
  | cons a t ih =>
      intro hinj
      have htail : ∀ x ∈ t, ∀ y ∈ t, f x = f y → x = y := fun x hx y hy =>
        hinj x (List.mem_cons_of_mem a hx) y (List.mem_cons_of_mem a hy)
      by_cases hmem : a ∈ t
      · rw [List.map_cons, List.dedup_cons_of_mem (List.mem_map_of_mem f hmem),
          List.dedup_cons_of_mem hmem, ih htail]
      · have hfmem : f a ∉ t.map f := by
          intro hc
          obtain ⟨x, hx, hfx⟩ := List.mem_map.mp hc
          have hxa := hinj x (List.mem_cons_of_mem a hx) a (List.mem_cons_self a t) hfx
          exact hmem (hxa ▸ hx)
        rw [List.map_cons, List.dedup_cons_of_not_mem hfmem,
          List.dedup_cons_of_not_mem hmem, ih htail, List.map_cons]

theorem sort_map_of_mono {α β : Type} (r : α → α → Prop) (s : β → β → Prop)
    [DecidableRel r] [DecidableRel s] [IsTotal α r] [IsTrans α r]
    [IsTotal β s] [IsTrans β s] [IsAntisymm β s] (f : α → β) (l : List α)
    (hmono : ∀ x ∈ l, ∀ y ∈ l, r x y → s (f x) (f y)) :
    (l.map f).insertionSort s = (l.insertionSort r).map f := by
  have hperm : List.Perm ((l.map f).insertionSort s) ((l.insertionSort r).map f) :=
    (List.perm_insertionSort s (l.map f)).trans
      ((List.perm_insertionSort r l).symm.map f)
  have hs1 : List.Sorted s ((l.map f).insertionSort s) := List.sorted_insertionSort s (l.map f)
  have hs2 : List.Sorted s ((l.insertionSort r).map f) := by
    have hsorted := List.sorted_insertionSort r l
    have hmem : ∀ x ∈ l.insertionSort r, x ∈ l := fun x hx =>
      (List.perm_insertionSort r l).mem_iff.mp hx
    have hpw : (l.insertionSort r).Pairwise (fun a b => s (f a) (f b)) :=
      hsorted.imp_of_mem (fun ha hb hr => hmono _ (hmem _ ha) _ (hmem _ hb) hr)
    exact (List.pairwise_map).mpr hpw
  exact List.eq_of_perm_of_sorted hperm hs1 hs2

/-- C6: for every aggregated query (daily, monthly, quarterly or yearly) over
any store whose timestamps lie in the verified range, the code's result — SQL
grouping by the `strftime` bucket string, `SUM(value)`, `MAX(quality)`,
`ORDER BY tag, bucket` under BINARY collation, and `bucketToISO` applied to
each bucket string — equals the result described by the specification: exactly
one point per distinct `(tag, UTC calendar bucket)` pair realised by the
matching samples, carrying the sum of the bucket's values and the maximum of
its qualities, timestamped at the bucket start instant (for quarterly:
`quarter = ((month-1) div 3) + 1`, bucket start month `(quarter-1)*3 + 1`,
day 1, UTC midnight), with each tag's points ordered by bucket ascending. -/
theorem queryAggregated_calendar_buckets
    (store : List Sample) (startTs endTs : Int) (tags : List String) (g : Grain)
    (hrange : ∀ s ∈ store, 0 ≤ s.timestamp ∧ s.timestamp ≤ maxVerifiedMs) :
    queryAggregated store startTs endTs tags g =
      specAggregated store startTs endTs tags g := by
  unfold queryAggregated specAggregated
  have hrowsSub : ∀ s ∈ matchingRows store startTs endTs tags,
      0 ≤ s.timestamp ∧ s.timestamp ≤ maxVerifiedMs := by
    intro s hs
    exact hrange s (List.mem_of_mem_filter hs)
  have hkey : ∀ s ∈ matchingRows store startTs endTs tags,
      InRangeCivil (specBucketStart g (msToCivil s.timestamp)) ∧
        BucketShape g (specBucketStart g (msToCivil s.timestamp)) := by
    intro s hs
    obtain ⟨h0, h1⟩ := hrowsSub s hs
    exact specBucketStart_range (msToCivil_bounds h0 h1)
  have hmapeq : (matchingRows store startTs endTs tags).map
        (fun s => (s.tag, sampleBucket g s)) =
      ((matchingRows store startTs endTs tags).map fun s =>
        (s.tag, specBucketStart g (msToCivil s.timestamp))).map
        (fun k => (k.1, bucketStrOf g k.2)) := by
    rw [List.map_map]
    refine (List.map_congr_left ?_).symm
    intro s _
    show ((s.tag, bucketStrOf g (specBucketStart g (msToCivil s.timestamp))) :
        String × String) = (s.tag, sampleBucket g s)
    rw [bucketStrOf_specBucketStart]
    rfl
  have hinj : ∀ x ∈ ((matchingRows store startTs endTs tags).map fun s =>
        (s.tag, specBucketStart g (msToCivil s.timestamp))),
      ∀ y ∈ ((matchingRows store startTs endTs tags).map fun s =>
        (s.tag, specBucketStart g (msToCivil s.timestamp))),
      (fun k => (k.1, bucketStrOf g k.2)) x = (fun k => (k.1, bucketStrOf g k.2)) y →
        x = y := by
    intro x hx y hy hxy
    obtain ⟨sx, hsx, rfl⟩ := List.mem_map.mp hx
    obtain ⟨sy, hsy, rfl⟩ := List.mem_map.mp hy
    obtain ⟨hrx, hshx⟩ := hkey sx hsx
    obtain ⟨hry, hshy⟩ := hkey sy hsy
    simp only [Prod.mk.injEq] at hxy ⊢
    exact ⟨hxy.1, bucketStrOf_inj hrx hshx hry hshy hxy.2⟩
  have hmemKeys : ∀ k ∈ ((matchingRows store startTs endTs tags).map fun s =>
        (s.tag, specBucketStart g (msToCivil s.timestamp))).dedup,
      InRangeCivil k.2 ∧ BucketShape g k.2 := by
    intro k hk
    obtain ⟨s, hs, rfl⟩ := List.mem_map.mp (List.mem_dedup.mp hk)
    exact hkey s hs
  have hmono : ∀ x ∈ ((matchingRows store startTs endTs tags).map fun s =>
        (s.tag, specBucketStart g (msToCivil s.timestamp))).dedup,
      ∀ y ∈ ((matchingRows store startTs endTs tags).map fun s =>
        (s.tag, specBucketStart g (msToCivil s.timestamp))).dedup,
      pairCivilLe x y →
        pairStrLe ((fun k => (k.1, bucketStrOf g k.2)) x)
          ((fun k => (k.1, bucketStrOf g k.2)) y) := by
    intro x hx y hy hxy
    obtain ⟨hrx, hshx⟩ := hmemKeys x hx
    obtain ⟨hry, hshy⟩ := hmemKeys y hy
    unfold pairCivilLe at hxy
    unfold pairStrLe
    dsimp only
    rcases hxy with h1 | ⟨he, hle⟩
    · exact Or.inl h1
    · refine Or.inr ⟨he, ?_⟩
      rcases civil_trichotomy x.2 y.2 with hlt | heq | hlt
      · exact bytesLt_asymm _ _ (bucketStrOf_lt hrx hshx hry hshy hlt)
      · rw [heq, bytesLt_irrefl]
      · exact absurd hle (by unfold civilLe; unfold civilLt at hlt; omega)
  rw [hmapeq, dedup_map_of_inj _ _ hinj,
    sort_map_of_mono pairCivilLe pairStrLe _ _ hmono, List.map_map]
  refine List.map_congr_left ?_
  intro k hk
  have hkmem : k ∈ ((matchingRows store startTs endTs tags).map fun s =>
      (s.tag, specBucketStart g (msToCivil s.timestamp))).dedup :=
    (List.perm_insertionSort _ _).mem_iff.mp hk
  obtain ⟨hr, hshape⟩ := hmemKeys k hkmem
  simp only [Function.comp_apply]
  have hgroups : groupRows (matchingRows store startTs endTs tags) g k.1
      (bucketStrOf g k.2) = (matchingRows store startTs endTs tags).filter
        (fun s => s.tag == k.1 && specBucketStart g (msToCivil s.timestamp) == k.2) := by
    unfold groupRows
    refine List.filter_congr ?_
    intro s hs
    obtain ⟨hrs, hshs⟩ := hkey s hs
    have hb1 : sampleBucket g s =
        bucketStrOf g (specBucketStart g (msToCivil s.timestamp)) :=
      (bucketStrOf_specBucketStart g _).symm
    rw [hb1]
    congr 1
    by_cases he : specBucketStart g (msToCivil s.timestamp) = k.2
    · rw [he]
      simp
    · have hne : bucketStrOf g (specBucketStart g (msToCivil s.timestamp)) ≠
          bucketStrOf g k.2 := fun hc => he (bucketStrOf_inj hrs hshs hr hshape hc)
      rw [beq_false_of_ne hne, beq_false_of_ne he]
  rw [hgroups, bucketToISO_render hr hshape]

/-- Witness: a concrete quarterly aggregation over three samples (two tags,
two quarters), with the range hypothesis discharged by evaluation. -/
theorem queryAggregated_calendar_buckets_witness :
    queryAggregated
      [⟨"fan", 1700000000000, 1, 2⟩, ⟨"fan", 1712000000000, 2, 3⟩,
        ⟨"pump", 1609459200000, 5, 1⟩]
      0 1800000000000 [] Grain.quarterly =
    specAggregated
      [⟨"fan", 1700000000000, 1, 2⟩, ⟨"fan", 1712000000000, 2, 3⟩,
        ⟨"pump", 1609459200000, 5, 1⟩]
      0 1800000000000 [] Grain.quarterly :=
  queryAggregated_calendar_buckets _ _ _ _ _ (by decide)
